import Mathlib

/-!
# Verification of the tic-tac-toe engine (`src/utils/gameLogic.ts`)

Shallow embedding of the move-selection engine of the repository.
Boards are flat lists of cells (`'X' | 'O' | null` in the source), JS array
indexing `board[i]` (which yields `undefined` out of range) is modelled by
`List.getD i none`, JS exceptions by `Except String`, the module-scoped
mutable caches by an explicit `EngineState` threaded through the functions,
and the ambient effects `Math.random()` / `Date.now()` by oracle streams in
an `Env` consumed through counters kept in the state.
-/

/-- A player marker: `'X' | 'O'` in the source (the `null` case of the
source's `Player` type is represented by `Option`). -/
inductive Player where
  | X
  | O
deriving DecidableEq, Repr

/-- A board cell: a marker or empty (`null`). -/
abbrev Cell := Option Player

/-- `GameBoard` from `types.ts`: a flat list of cells. -/
abbrev GameBoard := List Cell

/-- JS `board[i]` for a possibly out-of-range index: `undefined` is `none`. -/
def cellAt (board : GameBoard) (i : Nat) : Cell := board.getD i none

/-- `board[i]` for an `Int` index (JS indexing with a negative index yields
`undefined`). -/
def cellAtI (board : GameBoard) (i : Int) : Cell :=
  if i < 0 then none else board.getD i.toNat none

/-- `BOARD_SIZE` from `constants/config`. -/
def BOARD_SIZE : Nat := 3

/-- `DEFAULT_BOARD_SIZE` in `gameLogic.ts`. -/
def DEFAULT_BOARD_SIZE : Nat := BOARD_SIZE

/-- `MIN_BOARD_SIZE` in `gameLogic.ts`. -/
def MIN_BOARD_SIZE : Nat := BOARD_SIZE

/-- `MAX_BOARD_SIZE` in `gameLogic.ts`. -/
def MAX_BOARD_SIZE : Nat := 20

/-- `validateBoardSize(size)`: throws unless `size` is an integer in
`[MIN_BOARD_SIZE, MAX_BOARD_SIZE]` (the argument is a `Nat`, so the
`Number.isInteger` part of the source check always holds). -/
def validateBoardSize (size : Nat) : Except String Unit :=
  if size < MIN_BOARD_SIZE ∨ MAX_BOARD_SIZE < size then
    .error "Invalid board size"
  else
    .ok ()

/-- `validatePosition(position, boardSize)`. -/
def validatePosition (position : Int) (boardSize : Nat) : Except String Unit :=
  let maxPosition : Int := (boardSize : Int) * boardSize - 1
  if position < 0 ∨ maxPosition < position then
    .error "Invalid position"
  else
    .ok ()

/-- `getWinningCombinations(size)`: all rows, all columns, then the main and
anti diagonal (the by-size memo `winningCombinationsCache` only stores this
pure function's results, so it is observationally transparent and omitted). -/
def getWinningCombinations (size : Nat) : List (List Nat) :=
  ((List.range size).map fun row => (List.range size).map fun col => row * size + col)
    ++ ((List.range size).map fun col => (List.range size).map fun row => row * size + col)
    ++ [(List.range size).map fun i => i * size + i,
        (List.range size).map fun i => i * size + (size - 1 - i)]

/-- A single row combination (used to state facts about the combination list). -/
def rowLine (size r : Nat) : List Nat := (List.range size).map fun col => r * size + col

/-- A single column combination. -/
def colLine (size c : Nat) : List Nat := (List.range size).map fun row => row * size + c

/-- The main diagonal combination. -/
def mainDiag (size : Nat) : List Nat := (List.range size).map fun i => i * size + i

/-- The anti diagonal combination. -/
def antiDiag (size : Nat) : List Nat := (List.range size).map fun i => i * size + (size - 1 - i)

/-- The body of the winner loop of `checkWinner` for one combination:
`board[combination[0]]` when it is a marker and every cell of the combination
holds that marker. -/
def combinationWinner (board : GameBoard) : List Nat → Option Player
  | [] => none
  | c0 :: rest =>
    match cellAt board c0 with
    | none => none
    | some firstCell =>
      if (c0 :: rest).all fun index => cellAt board index = some firstCell then
        some firstCell
      else
        none

/-- The combination-enumeration winner scan of `checkWinner` (its `size <= 5`
branch): the first combination uniformly held by one player. -/
def checkWinnerCombos (board : GameBoard) (size : Nat) : Option Player :=
  (getWinningCombinations size).findSome? (combinationWinner board)

/-- `DIRECTION_VECTORS`. -/
def DIRECTION_VECTORS : List (Int × Int) := [(1, 0), (0, 1), (1, 1), (1, -1)]

/-- `checkLineFromPosition(board, startRow, startCol, dx, dy, size)`. -/
def checkLineFromPosition (board : GameBoard) (startRow startCol : Nat)
    (dx dy : Int) (size : Nat) : Option Player :=
  let startPos := startRow * size + startCol
  match cellAt board startPos with
  | none => none
  | some player =>
    let endRow : Int := (startRow : Int) + ((size : Int) - 1) * dx
    let endCol : Int := (startCol : Int) + ((size : Int) - 1) * dy
    if endRow < 0 ∨ (size : Int) ≤ endRow ∨ endCol < 0 ∨ (size : Int) ≤ endCol then
      none
    else if (List.range size).all (fun i =>
        let row : Int := (startRow : Int) + (i : Int) * dx
        let col : Int := (startCol : Int) + (i : Int) * dy
        cellAtI board (row * size + col) = some player) then
      some player
    else
      none

/-- `checkWinnerDynamic(board, size)`: scan every cell as a line start in the
four directions, returning the first winner found. -/
def checkWinnerDynamic (board : GameBoard) (size : Nat) : Option Player :=
  (List.range size).findSome? fun row =>
    (List.range size).findSome? fun col =>
      DIRECTION_VECTORS.findSome? fun d =>
        checkLineFromPosition board row col d.1 d.2 size

/-- The result type of `checkWinner`: a winning marker or the `'tie'` sentinel
(`null`, game not over, is the `none` of the surrounding `Option`). -/
inductive WinState where
  | won (p : Player)
  | tie
deriving DecidableEq, Repr

/-- `checkWinner(board, size)`. -/
def checkWinner (board : GameBoard) (size : Nat) : Except String (Option WinState) := do
  validateBoardSize size
  if board.length ≠ size * size then
    throw "Board size mismatch"
  let winner : Option Player :=
    if 5 < size then checkWinnerDynamic board size
    else checkWinnerCombos board size
  match winner with
  | some p => return some (.won p)
  | none =>
    if board.all fun cell => cell ≠ none then
      return some .tie
    else
      return none

/-- `getAvailableMoves(board)`: indices of empty cells, in ascending order. -/
def getAvailableMoves (board : GameBoard) : List Nat :=
  (List.range board.length).filter fun i => cellAt board i = none

/-- `Math.sqrt` as the engine observes it: the integral square root (the
callers immediately test integrality, so only the perfect-square value and
the failure of that test are observable).  Defined by bounded search so that
concrete runs reduce inside the kernel. -/
def natSqrt (n : Nat) : Nat :=
  ((List.range (n + 1)).filter fun k => k * k ≤ n).length - 1

/-- `makeMove(board, position, player)`: validations then a copy with the
position set.  The source computes `size = Math.sqrt(board.length)` and
re-validates it; `Number.isInteger(size)` corresponds to the board length
being a perfect square. -/
def makeMove (board : GameBoard) (position : Int) (player : Player) :
    Except String GameBoard :=
  let size := natSqrt board.length
  if size * size ≠ board.length then
    .error "Invalid board size"
  else
    (validateBoardSize size).bind fun _ =>
      (validatePosition position size).bind fun _ =>
        -- validatePlayer always succeeds: `player` is `'X'` or `'O'` here
        if cellAtI board position ≠ none then
          .error "Invalid move: position already occupied"
        else
          .ok (board.set position.toNat (some player))

/-- The value the four-direction scan contributes at cell `(r, c)`: the lines
of length `size` starting there. -/
def dynCell (board : GameBoard) (n r c : Nat) : Option Player :=
  (if r = 0 then combinationWinner board (colLine n c) else none).or
    ((if c = 0 then combinationWinner board (rowLine n r) else none).or
      ((if r = 0 ∧ c = 0 then combinationWinner board (mainDiag n) else none).or
        (if r = 0 ∧ c = n - 1 then combinationWinner board (antiDiag n) else none)))

/-! ## The bounded LRU cache (`class LRUCache<K, V>`) -/

/-- JS `Set.prototype.add`: appends the key if absent, keeps the insertion
order otherwise. -/
def setAdd {K : Type} [DecidableEq K] (k : K) (usage : List K) : List K :=
  if k ∈ usage then usage else usage ++ [k]

/-- JS `Set.prototype.delete`: removes the first (on a JS `Set`: the only)
occurrence of the key. -/
def eraseKey {K : Type} [DecidableEq K] (k : K) : List K → List K
  | [] => []
  | a :: rest => if a = k then rest else a :: eraseKey k rest

/-- JS `Map.prototype.get` over a `Map` modelled as an association list in
insertion order. -/
def mapGet {K V : Type} [DecidableEq K] (k : K) : List (K × V) → Option V
  | [] => none
  | (k', v) :: rest => if k' = k then some v else mapGet k rest

/-- JS `Map.prototype.set`: updates an existing key in place, appends a new
key. -/
def mapSet {K V : Type} [DecidableEq K] (k : K) (v : V) : List (K × V) → List (K × V)
  | [] => [(k, v)]
  | (k', v') :: rest => if k' = k then (k, v) :: rest else (k', v') :: mapSet k v rest

/-- JS `Map.prototype.delete`. -/
def mapDelete {K V : Type} [DecidableEq K] (k : K) : List (K × V) → List (K × V)
  | [] => []
  | (k', v') :: rest => if k' = k then rest else (k', v') :: mapDelete k rest

/-- The `LRUCache` class: a capacity, the key-value `Map` `cache`, the
recency `Set` `usage` (least recently used first), and the hit/miss counters
of the stats variant. -/
structure LRUCache (K V : Type) where
  capacity : Nat
  cache : List (K × V) := []
  usage : List K := []
  hits : Nat := 0
  misses : Nat := 0

namespace LRUCache

variable {K V : Type} [DecidableEq K]

/-- `new LRUCache(capacity)`. -/
def init (capacity : Nat) : LRUCache K V :=
  { capacity := capacity }

/-- `get(key)`: on a hit the key is moved to the back of `usage` (most
recently used) and its value returned. -/
def get (c : LRUCache K V) (key : K) : Option V × LRUCache K V :=
  if (mapGet key c.cache).isSome then
    (mapGet key c.cache, { c with usage := setAdd key (eraseKey key c.usage) })
  else
    (none, c)

/-- `set(key, value)`: refresh an existing key in place; otherwise evict the
least recently used key first when at capacity, then insert. -/
def set (c : LRUCache K V) (key : K) (v : V) : LRUCache K V :=
  if (mapGet key c.cache).isSome then
    { c with usage := setAdd key (eraseKey key c.usage), cache := mapSet key v c.cache }
  else
    let c' :=
      if c.capacity ≤ c.cache.length then
        -- `this.usage.values().next().value` is the oldest usage entry; on an
        -- empty `usage` the JS deletes key `undefined`, a no-op
        match c.usage with
        | [] => c
        | lru :: _ => { c with usage := eraseKey lru c.usage, cache := mapDelete lru c.cache }
      else c
    { c' with cache := mapSet key v c'.cache, usage := setAdd key c'.usage }

/-- `has(key)`. -/
def has (c : LRUCache K V) (key : K) : Bool :=
  (mapGet key c.cache).isSome

/-- `clear()`. -/
def clear (c : LRUCache K V) : LRUCache K V :=
  { c with cache := [], usage := [] }

/-- The `size` getter. -/
def size (c : LRUCache K V) : Nat := c.cache.length

/-- `getWithStats(key)`: `get` plus hit/miss accounting. -/
def getWithStats (c : LRUCache K V) (key : K) : Option V × LRUCache K V :=
  match c.get key with
  | (some v, c') => (some v, { c' with hits := c'.hits + 1 })
  | (none, c') => (none, { c' with misses := c'.misses + 1 })

end LRUCache

/-- Well-formedness of an LRU cache's components: distinct map keys, distinct
usage entries, and the same keys in the map and the usage set (as JS
`Map`/`Set` guarantee). -/
def lruWF {K V : Type} [DecidableEq K] (cache : List (K × V)) (usage : List K) : Prop :=
  (cache.map Prod.fst).Nodup ∧ usage.Nodup
    ∧ ∀ k, (mapGet k cache).isSome ↔ k ∈ usage

/-- Well-formedness of an `LRUCache`. -/
def LRUCache.WF {K V : Type} [DecidableEq K] (c : LRUCache K V) : Prop :=
  lruWF c.cache c.usage

/-- One `get` or `set` call. -/
inductive CacheOp (K V : Type) where
  | get (k : K)
  | set (k : K) (v : V)

/-- Run one operation for its state effect. -/
def applyOp {K V : Type} [DecidableEq K] (c : LRUCache K V) : CacheOp K V → LRUCache K V
  | .get k => (c.get k).2
  | .set k v => c.set k v

/-- Run a finite sequence of operations. -/
def applyOps {K V : Type} [DecidableEq K] (c : LRUCache K V) (ops : List (CacheOp K V)) :
    LRUCache K V :=
  ops.foldl applyOp c

/-! ## Engine configuration, scores and state -/

/-- A JS number as used for engine scores: an integer or `±Infinity`. -/
inductive XInt where
  | negInf
  | fin (n : Int)
  | posInf
deriving DecidableEq, Repr

/-- JS `<=` on score values. -/
def XInt.le : XInt → XInt → Bool
  | .negInf, _ => true
  | _, .posInf => true
  | .fin a, .fin b => a ≤ b
  | .fin _, .negInf => false
  | .posInf, _ => false

/-- JS `<` on score values. -/
def XInt.lt (a b : XInt) : Bool := !(XInt.le b a)

/-- JS `Math.max` on score values. -/
def XInt.max (a b : XInt) : XInt := if XInt.le a b then b else a

/-- JS `Math.min` on score values. -/
def XInt.min (a b : XInt) : XInt := if XInt.le b a then b else a

/-- `getDynamicScores(size)`. -/
structure DynamicScores where
  WIN_SCORE : Int
  LOSS_SCORE : Int
  TIE_SCORE : Int

/-- Win/loss scores scale with the cell count. -/
def getDynamicScores (size : Nat) : DynamicScores :=
  let baseScore : Int := (size : Int) * size * 10
  { WIN_SCORE := baseScore, LOSS_SCORE := -baseScore, TIE_SCORE := 0 }

/-- `AI_CONFIG.CENTER_BONUS`. -/
def CENTER_BONUS : Int := 30

/-- `AI_CONFIG.CORNER_BONUS`. -/
def CORNER_BONUS : Int := 20

/-- `AI_CONFIG.EDGE_BONUS`. -/
def EDGE_BONUS : Int := 10

/-- `AI_CONFIG.LINE_SCORE_BASE`. -/
def LINE_SCORE_BASE : Int := 10

/-- `AI_CONFIG.FORK_BONUS`. -/
def FORK_BONUS : Int := 50

/-- `AI_CONFIG.BLOCK_BONUS`. -/
def BLOCK_BONUS : Int := 40

/-- `AI_CONFIG.TIME_LIMIT_MS`. -/
def TIME_LIMIT_MS : Int := 1000

/-- `AI_CONFIG.MIN_SEARCH_DEPTH`. -/
def MIN_SEARCH_DEPTH : Nat := 1

/-- `AI_CONFIG.MAX_SEARCH_DEPTH`. -/
def MAX_SEARCH_DEPTH : Nat := 12

/-- `AI_CONFIG.LARGE_BOARD_THRESHOLD`. -/
def LARGE_BOARD_THRESHOLD : Nat := 7

/-- `AI_CONFIG.ENDGAME_THRESHOLD`. -/
def ENDGAME_THRESHOLD : Int := 8

/-- `AI_CONFIG.EASY_SMART_PERCENTAGE`. -/
def EASY_SMART_PERCENTAGE : ℚ := 1/4

/-- `AI_CONFIG.MEDIUM_RANDOM_PERCENTAGE`. -/
def MEDIUM_RANDOM_PERCENTAGE : ℚ := 3/20

/-- `PERFORMANCE_CONFIG.MAX_MINIMAX_DEPTH`, a lookup keyed by literal sizes. -/
def MAX_MINIMAX_DEPTH : Nat → Option Nat
  | 3 => some 9
  | 4 => some 7
  | 5 => some 5
  | 6 => some 4
  | 7 => some 3
  | 8 => some 2
  | 9 => some 2
  | 10 => some 2
  | _ => none

/-- `PERFORMANCE_CONFIG.ENABLE_TRANSPOSITION_TABLE`. -/
def ENABLE_TRANSPOSITION_TABLE : Bool := true

/-- `PERFORMANCE_CONFIG.ENABLE_ITERATIVE_DEEPENING`. -/
def ENABLE_ITERATIVE_DEEPENING : Bool := true

/-- `PERFORMANCE_CONFIG.ENABLE_MOVE_ORDERING`. -/
def ENABLE_MOVE_ORDERING : Bool := true

/-- `getCacheSize(size)`. -/
def getCacheSize (size : Nat) : Nat :=
  if size ≤ DEFAULT_BOARD_SIZE then 15000
  else if size ≤ 6 then 8000
  else 2000

/-- The key built by `createBoardHash`: the source interpolates
`boardStr_depth_isMaximizing_alpha_beta` into a string, an injective encoding
of exactly these components (`undefined` for an omitted `alpha`/`beta`), so
the tuple models the string key faithfully. -/
abbrev HashKey := GameBoard × Nat × Bool × Option XInt × Option XInt

/-- `createBoardHash(board, depth, isMaximizing, alpha?, beta?)`. -/
def createBoardHash (board : GameBoard) (depth : Nat) (isMaximizing : Bool)
    (alpha beta : Option XInt) : HashKey :=
  (board, depth, isMaximizing, alpha, beta)

/-- A transposition-table entry. -/
inductive TTFlag where
  | exact
  | upper
  | lower
deriving DecidableEq, Repr

/-- The value stored in the transposition table. -/
structure TTEntry where
  score : XInt
  depth : Nat
  flag : TTFlag
deriving DecidableEq, Repr

/-- The oracle streams for the ambient effects: `clock i` is the value of the
`i`-th `Date.now()` call, `rand i` the value of the `i`-th `Math.random()`
call (JS guarantees `0 ≤ rand i < 1`). -/
structure Env where
  clock : Nat → Nat
  rand : Nat → ℚ

/-- The module-scoped mutable state: the two LRU caches and the counters of
consumed clock readings and random draws. -/
structure EngineState where
  boardEvaluationCache : LRUCache HashKey Int
  transpositionTable : LRUCache HashKey TTEntry
  clockIdx : Nat
  randIdx : Nat

/-- `initializeCaches(size)`. -/
def initializeCaches (size : Nat) (st : EngineState) : EngineState :=
  { st with
    boardEvaluationCache := LRUCache.init (getCacheSize size),
    transpositionTable := LRUCache.init (getCacheSize size) }

/-- The state after the module-load `initializeCaches()` call. -/
def initialEngineState : EngineState :=
  { boardEvaluationCache := LRUCache.init (getCacheSize DEFAULT_BOARD_SIZE),
    transpositionTable := LRUCache.init (getCacheSize DEFAULT_BOARD_SIZE),
    clockIdx := 0,
    randIdx := 0 }

/-- One `Date.now()` call. -/
def readClock (env : Env) (st : EngineState) : Nat × EngineState :=
  (env.clock st.clockIdx, { st with clockIdx := st.clockIdx + 1 })

/-- One `Math.random()` call. -/
def readRand (env : Env) (st : EngineState) : ℚ × EngineState :=
  (env.rand st.randIdx, { st with randIdx := st.randIdx + 1 })

/-- The inline `player === 'O' ? 'X' : 'O'` of the source. -/
def opponent (p : Player) : Player :=
  match p with
  | .O => .X
  | .X => .O

/-- `getStrategicPositions(size)`. -/
structure StrategicPositions where
  center : List Nat
  corners : List Nat
  edges : List Nat

/-- Center cell(s), corners, and non-corner edge cells of the board. -/
def getStrategicPositions (size : Nat) : StrategicPositions :=
  let mid := size / 2
  let center :=
    if size % 2 = 1 then
      [mid * size + mid]
    else
      [(mid - 1) * size + (mid - 1), (mid - 1) * size + mid,
        mid * size + (mid - 1), mid * size + mid]
  let corners := [0, size - 1, size * (size - 1), size * size - 1]
  let edges := (List.range (size - 2)).flatMap fun j =>
    [(j + 1), (j + 1) * size, (size - 1) * size + (j + 1), (j + 1) * size + (size - 1)]
  { center := center, corners := corners, edges := edges }

/-- `evaluateLine(board, combination, maximizingPlayer, size)`: score one
potential winning line. -/
def evaluateLine (board : GameBoard) (combination : List Nat)
    (maximizingPlayer : Player) (size : Nat) : Int :=
  let minimizingPlayer := opponent maximizingPlayer
  let counts := combination.foldl
    (fun (acc : Nat × Nat × Nat) index =>
      if cellAt board index = some maximizingPlayer then (acc.1 + 1, acc.2.1, acc.2.2)
      else if cellAt board index = some minimizingPlayer then (acc.1, acc.2.1 + 1, acc.2.2)
      else (acc.1, acc.2.1, acc.2.2 + 1))
    (0, 0, 0)
  let maxCount := counts.1
  let minCount := counts.2.1
  if 0 < maxCount ∧ 0 < minCount then 0
  else if 0 < maxCount then
    LINE_SCORE_BASE ^ maxCount + (if maxCount = size - 1 then FORK_BONUS else 0)
  else if 0 < minCount then
    -(LINE_SCORE_BASE ^ minCount) - (if minCount = size - 1 then BLOCK_BONUS else 0)
  else 0

/-- `detectForks(board, player, size)`: total bonus over the moves that would
create at least two simultaneous winning threats. -/
def detectForks (board : GameBoard) (player : Player) (size : Nat) :
    Except String Int :=
  let availableMoves := getAvailableMoves board
  availableMoves.foldlM
    (fun forkScore (move : Nat) => do
      let testBoard ← makeMove board (move : Int) player
      let winningCombinations := getWinningCombinations size
      let threats : Nat := winningCombinations.foldl
        (fun threats combination =>
          if combination.contains move then
            let counts := combination.foldl
              (fun (acc : Nat × Nat) index =>
                if cellAt testBoard index = some player then (acc.1 + 1, acc.2)
                else if cellAt testBoard index = none then (acc.1, acc.2 + 1)
                else acc)
              (0, 0)
            if counts.1 = size - 1 ∧ counts.2 = 1 then threats + 1 else threats
          else threats)
        0
      if 2 ≤ threats then
        pure (forkScore + FORK_BONUS * threats)
      else
        pure forkScore)
    0

/-- `evaluateBoard(board, size, maximizingPlayer)`: memoized heuristic score.
The cache key is built with fixed `depth = 0` and `isMaximizing = true` and
no `alpha`/`beta` — it does not encode `maximizingPlayer`. -/
def evaluateBoard (board : GameBoard) (size : Nat) (maximizingPlayer : Player)
    (st : EngineState) : Except String (Int × EngineState) := do
  let boardHash := createBoardHash board 0 true none none
  match st.boardEvaluationCache.getWithStats boardHash with
  | (some cached, cache') =>
    return (cached, { st with boardEvaluationCache := cache' })
  | (none, cache') =>
    let st := { st with boardEvaluationCache := cache' }
    let winner ← checkWinner board size
    let scores := getDynamicScores size
    match winner with
    | some (.won p) =>
      if p = maximizingPlayer then
        let st := { st with boardEvaluationCache :=
          st.boardEvaluationCache.set boardHash scores.WIN_SCORE }
        return (scores.WIN_SCORE, st)
      else
        let st := { st with boardEvaluationCache :=
          st.boardEvaluationCache.set boardHash scores.LOSS_SCORE }
        return (scores.LOSS_SCORE, st)
    | some .tie =>
      let st := { st with boardEvaluationCache :=
        st.boardEvaluationCache.set boardHash scores.TIE_SCORE }
      return (scores.TIE_SCORE, st)
    | none =>
      let winningCombinations := getWinningCombinations size
      let strategicPositions := getStrategicPositions size
      let score : Int := winningCombinations.foldl
        (fun acc combination => acc + evaluateLine board combination maximizingPlayer size) 0
      let score := strategicPositions.center.foldl
        (fun acc pos =>
          let acc := if cellAt board pos = some maximizingPlayer then acc + CENTER_BONUS else acc
          if cellAt board pos = some (opponent maximizingPlayer) then acc - CENTER_BONUS
          else acc)
        score
      let score := strategicPositions.corners.foldl
        (fun acc pos =>
          let acc := if cellAt board pos = some maximizingPlayer then acc + CORNER_BONUS else acc
          if cellAt board pos = some (opponent maximizingPlayer) then acc - CORNER_BONUS
          else acc)
        score
      let score := strategicPositions.edges.foldl
        (fun acc pos =>
          let acc := if cellAt board pos = some maximizingPlayer then acc + EDGE_BONUS else acc
          if cellAt board pos = some (opponent maximizingPlayer) then acc - EDGE_BONUS
          else acc)
        score
      let score ←
        if 4 ≤ size then do
          let own ← detectForks board maximizingPlayer size
          let opp ← detectForks board (opponent maximizingPlayer) size
          pure (score + own - opp)
        else
          pure score
      let st := { st with boardEvaluationCache :=
        st.boardEvaluationCache.set boardHash score }
      return (score, st)

/-- `getAdvancedMovePriority(position, board, size, player)`. -/
def getAdvancedMovePriority (position : Nat) (board : GameBoard) (size : Nat)
    (player : Player) : Except String Int := do
  let strategicPositions := getStrategicPositions size
  let priority : Int :=
    if strategicPositions.center.contains position then CENTER_BONUS
    else if strategicPositions.corners.contains position then CORNER_BONUS
    else if strategicPositions.edges.contains position then EDGE_BONUS
    else 0
  let testBoard ← makeMove board (position : Int) player
  let winningCombinations := getWinningCombinations size
  let acc := winningCombinations.foldl
    (fun (acc : Int × Nat × Nat) combination =>
      if combination.contains position then
        let counts := combination.foldl
          (fun (cnt : Nat × Nat × Nat) index =>
            if cellAt testBoard index = some player then (cnt.1 + 1, cnt.2.1, cnt.2.2)
            else if cellAt testBoard index = some (opponent player) then
              (cnt.1, cnt.2.1 + 1, cnt.2.2)
            else (cnt.1, cnt.2.1, cnt.2.2 + 1))
          (0, 0, 0)
        let playerCount := counts.1
        let opponentCount := counts.2.1
        let emptyCount := counts.2.2
        if playerCount = size then (acc.1 + 10000, acc.2.1, acc.2.2)
        else if playerCount = size - 1 ∧ emptyCount = 1 then (acc.1, acc.2.1 + 1, acc.2.2)
        else if opponentCount = size - 1 ∧ emptyCount = 1 then (acc.1, acc.2.1, acc.2.2 + 1)
        else acc
      else acc)
    (priority, 0, 0)
  return acc.1 + (acc.2.1 : Int) * FORK_BONUS + (acc.2.2 : Int) * BLOCK_BONUS

/-- Stable insertion step for the descending-priority sort. -/
def insertDesc (p : Nat × Int) : List (Nat × Int) → List (Nat × Int)
  | [] => [p]
  | q :: rest => if q.2 < p.2 then p :: q :: rest else q :: insertDesc p rest

/-- A stable sort, descending by priority: JS `Array.prototype.sort` with the
comparator `priorityB - priorityA` is required to be stable, so any stable
descending sort models it. -/
def stableSortDesc (l : List (Nat × Int)) : List (Nat × Int) :=
  l.foldl (fun acc p => insertDesc p acc) []

/-- The priorities the sort comparator computes, one per move. -/
def movePriorities (board : GameBoard) (size : Nat) (player : Player) :
    List Nat → Except String (List (Nat × Int))
  | [] => .ok []
  | m :: rest => do
    let p ← getAdvancedMovePriority m board size player
    let others ← movePriorities board size player rest
    return (m, p) :: others

/-- `orderMoves(availableMoves, board, size, player)`. -/
def orderMoves (availableMoves : List Nat) (board : GameBoard) (size : Nat)
    (player : Player) : Except String (List Nat) := do
  if ENABLE_MOVE_ORDERING then
    let withPriority ← movePriorities board size player availableMoves
    return (stableSortDesc withPriority).map Prod.fst
  else
    return availableMoves

/-- The result of one `minimax` node. -/
structure MMResult where
  score : XInt
  bestMove : Option Nat

/-- The maximizing move loop of `minimax`, parameterized by the recursive
search call on a child board; returns the best score, best move and the
transposition flag (`lower` after an alpha-beta break, `exact` otherwise). -/
def minimaxMaxLoop (board : GameBoard) (player : Player)
    (recur : GameBoard → XInt → XInt → EngineState → Except String (XInt × EngineState)) :
    List Nat → XInt → XInt → XInt → Option Nat → EngineState
    → Except String ((XInt × Option Nat × TTFlag) × EngineState)
  | [], _alpha, _beta, bestScore, bestMove, st => .ok ((bestScore, bestMove, .exact), st)
  | move :: rest, alpha, beta, bestScore, bestMove, st => do
    let newBoard ← makeMove board (move : Int) player
    let (score, st) ← recur newBoard alpha beta st
    let (bestScore, bestMove) :=
      if XInt.lt bestScore score then (score, some move) else (bestScore, bestMove)
    let alpha := XInt.max alpha score
    if XInt.le beta alpha then
      .ok ((bestScore, bestMove, .lower), st)
    else
      minimaxMaxLoop board player recur rest alpha beta bestScore bestMove st

/-- The minimizing move loop of `minimax` (flag `upper` after a break). -/
def minimaxMinLoop (board : GameBoard) (player : Player)
    (recur : GameBoard → XInt → XInt → EngineState → Except String (XInt × EngineState)) :
    List Nat → XInt → XInt → XInt → Option Nat → EngineState
    → Except String ((XInt × Option Nat × TTFlag) × EngineState)
  | [], _alpha, _beta, bestScore, bestMove, st => .ok ((bestScore, bestMove, .exact), st)
  | move :: rest, alpha, beta, bestScore, bestMove, st => do
    let newBoard ← makeMove board (move : Int) player
    let (score, st) ← recur newBoard alpha beta st
    let (bestScore, bestMove) :=
      if XInt.lt score bestScore then (score, some move) else (bestScore, bestMove)
    let beta := XInt.min beta score
    if XInt.le beta alpha then
      .ok ((bestScore, bestMove, .upper), st)
    else
      minimaxMinLoop board player recur rest alpha beta bestScore bestMove st

/-- The wall-clock check at the top of `minimax`:
`if (startTime && Date.now() - startTime > AI_CONFIG.TIME_LIMIT_MS)`.  The
clock is read only when `startTime` is present and truthy (JS `0` is falsy). -/
def minimaxTimeCheck (env : Env) (startTime : Option Nat) (st : EngineState) :
    Bool × EngineState :=
  match startTime with
  | none => (false, st)
  | some t =>
    if t = 0 then (false, st)
    else
      let (now, st) := readClock env st
      (decide (TIME_LIMIT_MS < (now : Int) - (t : Int)), st)

/-- `maxDepth ?? PERFORMANCE_CONFIG.MAX_MINIMAX_DEPTH[size] ?? 4`. -/
def minimaxDepthLimit (maxDepth : Option Int) (size : Nat) : Int :=
  match maxDepth with
  | some d => d
  | none =>
    match MAX_MINIMAX_DEPTH size with
    | some d => (d : Int)
    | none => 4

/-- The transposition-table lookup of `minimax` (a `get`, so it refreshes the
entry's recency), guarded by `ENABLE_TRANSPOSITION_TABLE`. -/
def minimaxTTProbe (boardHash : HashKey) (st : EngineState) :
    Option TTEntry × EngineState :=
  if ENABLE_TRANSPOSITION_TABLE then
    let (cachedOpt, tt') := st.transpositionTable.get boardHash
    (cachedOpt, { st with transpositionTable := tt' })
  else
    (none, st)

/-- The transposition-table cutoff of `minimax`: the score returned directly
when the cached entry is deep enough and its bound type permits. -/
def ttCutScore (cached : Option TTEntry) (depth : Nat) (alpha beta : XInt) :
    Option XInt :=
  match cached with
  | none => none
  | some entry =>
    if depth ≤ entry.depth then
      if entry.flag = .exact then some entry.score
      else if entry.flag = .lower ∧ XInt.le beta entry.score then some entry.score
      else if entry.flag = .upper ∧ XInt.le entry.score alpha then some entry.score
      else none
    else none

/-- The terminal-state scores of `minimax`: win for the maximizer
(`WIN_SCORE - depth`), win for the minimizer (`LOSS_SCORE + depth`), tie. -/
def minimaxTerminalScore (winner : Option WinState) (maximizingPlayer : Player)
    (scores : DynamicScores) (depth : Nat) : Option XInt :=
  match winner with
  | some (.won p) =>
    if p = maximizingPlayer then some (.fin (scores.WIN_SCORE - (depth : Int)))
    else some (.fin (scores.LOSS_SCORE + (depth : Int)))
  | some .tie => some (.fin scores.TIE_SCORE)
  | none => none

/-- The transposition-table store at the end of a `minimax` node. -/
def minimaxStore (boardHash : HashKey) (bestScore : XInt) (depth : Nat) (flag : TTFlag)
    (st : EngineState) : EngineState :=
  if ENABLE_TRANSPOSITION_TABLE then
    { st with transpositionTable :=
        st.transpositionTable.set boardHash { score := bestScore, depth := depth, flag := flag } }
  else st

/-- `minimax(board, depth, isMaximizing, alpha, beta, size, maximizingPlayer,
maxDepth?, startTime?)`, assembled from the phase helpers above in the
source's order: time check, depth limit, transposition probe and cutoff,
terminal states, depth cutoff, no-moves tie, then the move loop and the
transposition store.  The extra leading `Nat` is recursion fuel: every entry
point passes `board.length + 1`, more than the number of empty cells, so the
fuel never runs out (each recursive call fills one cell); the fuel-0 branch
is unreachable there and returns no move. -/
def minimax (env : Env) : Nat → GameBoard → Nat → Bool → XInt → XInt → Nat → Player
    → Option Int → Option Nat → EngineState → Except String (MMResult × EngineState)
  | 0, _board, _depth, _isMaximizing, _alpha, _beta, _size, _maximizingPlayer,
      _maxDepth, _startTime, st =>
    .ok ({ score := .fin 0, bestMove := none }, st)
  | fuel + 1, board, depth, isMaximizing, alpha, beta, size, maximizingPlayer,
      maxDepth, startTime, st =>
    match minimaxTimeCheck env startTime st with
    | (true, st) =>
      (evaluateBoard board size maximizingPlayer st).bind fun scoreSt =>
        .ok ({ score := .fin scoreSt.1, bestMove := none }, scoreSt.2)
    | (false, st) =>
      let depthLimit := minimaxDepthLimit maxDepth size
      let scores := getDynamicScores size
      let boardHash := createBoardHash board depth isMaximizing (some alpha) (some beta)
      match minimaxTTProbe boardHash st with
      | (cached, st) =>
        match ttCutScore cached depth alpha beta with
        | some s => .ok ({ score := s, bestMove := none }, st)
        | none =>
          (checkWinner board size).bind fun winner =>
            match minimaxTerminalScore winner maximizingPlayer scores depth with
            | some s => .ok ({ score := s, bestMove := none }, st)
            | none =>
              if depthLimit ≤ (depth : Int) then
                (evaluateBoard board size maximizingPlayer st).bind fun scoreSt =>
                  .ok ({ score := .fin scoreSt.1, bestMove := none }, scoreSt.2)
              else
                let availableMoves := getAvailableMoves board
                if availableMoves.isEmpty then
                  .ok ({ score := .fin scores.TIE_SCORE, bestMove := none }, st)
                else if isMaximizing then
                  (orderMoves availableMoves board size maximizingPlayer).bind
                    fun orderedMoves =>
                    (minimaxMaxLoop board maximizingPlayer
                      (fun b a bet s =>
                        (minimax env fuel b (depth + 1) false a bet size maximizingPlayer
                            maxDepth startTime s).map
                          fun r => (r.1.score, r.2))
                      orderedMoves alpha beta .negInf none st).bind
                      fun resSt =>
                      .ok ({ score := resSt.1.1, bestMove := resSt.1.2.1 },
                        minimaxStore boardHash resSt.1.1 depth resSt.1.2.2 resSt.2)
                else
                  let minimizingPlayer := opponent maximizingPlayer
                  (orderMoves availableMoves board size minimizingPlayer).bind
                    fun orderedMoves =>
                    (minimaxMinLoop board minimizingPlayer
                      (fun b a bet s =>
                        (minimax env fuel b (depth + 1) true a bet size maximizingPlayer
                            maxDepth startTime s).map
                          fun r => (r.1.score, r.2))
                      orderedMoves alpha beta .posInf none st).bind
                      fun resSt =>
                      .ok ({ score := resSt.1.1, bestMove := resSt.1.2.1 },
                        minimaxStore boardHash resSt.1.1 depth resSt.1.2.2 resSt.2)

/-- The while loop of `iterativeDeepening`, fueled by `MAX_SEARCH_DEPTH + 1`
(one entry per loop-condition check; `depth` grows by one per iteration, so
the fuel suffices and the fuel-0 exit equals the condition-false exit).
An exception from `minimax` is the source's `catch { break }`. -/
def iterativeDeepeningLoop (env : Env) (board : GameBoard) (size : Nat)
    (timeLimit : Int) (startTime : Nat) :
    Nat → Nat → Nat → EngineState → Nat × EngineState
  | 0, _depth, bestMove, st => (bestMove, st)
  | fuelD + 1, depth, bestMove, st =>
    let (now, st) := readClock env st
    if (now : Int) - (startTime : Int) < timeLimit ∧ depth ≤ MAX_SEARCH_DEPTH then
      match minimax env (board.length + 1) board 0 true .negInf .posInf size .O
          (some (depth : Int)) (some startTime) st with
      | .error _ => (bestMove, st)
      | .ok (result, st) =>
        let bestMove :=
          match result.bestMove with
          | some m => m
          | none => bestMove
        if XInt.le (.fin ((getDynamicScores size).WIN_SCORE - (depth : Int))) result.score then
          (bestMove, st)
        else
          iterativeDeepeningLoop env board size timeLimit startTime fuelD (depth + 1) bestMove st
    else
      (bestMove, st)

/-- `iterativeDeepening(board, availableMoves, size, timeLimit)`. -/
def iterativeDeepening (env : Env) (board : GameBoard) (availableMoves : List Nat)
    (size : Nat) (timeLimit : Int) (st : EngineState) : Nat × EngineState :=
  let (startTime, st) := readClock env st
  let bestMove := availableMoves.headD 0
  let st := if st.boardEvaluationCache.size = 0 then initializeCaches size st else st
  iterativeDeepeningLoop env board size timeLimit startTime (MAX_SEARCH_DEPTH + 1)
    MIN_SEARCH_DEPTH bestMove st

/-- The win-taking loops of `getMediumMove` and `getHardMove`: the first
available move after which `checkWinner` reports `p`. -/
def firstWinningMove (board : GameBoard) (size : Nat) (p : Player) :
    List Nat → Except String (Option Nat)
  | [] => .ok none
  | move :: rest => do
    let testBoard ← makeMove board (move : Int) p
    let w ← checkWinner testBoard size
    if w = some (.won p) then
      return some move
    firstWinningMove board size p rest

/-- The fork-taking loops of `getMediumMove`: the first available move whose
resulting board has `detectForks` above `FORK_BONUS` for `p`. -/
def firstForkMove (board : GameBoard) (size : Nat) (p : Player) :
    List Nat → Except String (Option Nat)
  | [] => .ok none
  | move :: rest => do
    let testBoard ← makeMove board (move : Int) p
    let forkScore ← detectForks testBoard p size
    if FORK_BONUS < forkScore then
      return some move
    firstForkMove board size p rest

/-- JS array indexing used with a computed random index: out of range gives
`undefined` (`none`). -/
def jsIndex (l : List Nat) (i : Int) : Option Nat :=
  if 0 ≤ i ∧ i < (l.length : Int) then some (l.getD i.toNat 0) else none

/-- `getMediumMove(board, availableMoves, size)`: win, block, forks,
strategic positions, occasional random move, else best one-ply evaluation.
The returned `Option Nat` is the JS number-or-`undefined` result. -/
def getMediumMove (env : Env) (board : GameBoard) (availableMoves : List Nat)
    (size : Nat) (st : EngineState) : Except String (Option Nat × EngineState) := do
  let w ← firstWinningMove board size .O availableMoves
  match w with
  | some move => return (some move, st)
  | none => pure ()
  let b ← firstWinningMove board size .X availableMoves
  match b with
  | some move => return (some move, st)
  | none => pure ()
  if 4 ≤ size then
    let f1 ← firstForkMove board size .O availableMoves
    match f1 with
    | some move => return (some move, st)
    | none => pure ()
    let f2 ← firstForkMove board size .X availableMoves
    match f2 with
    | some move => return (some move, st)
    | none => pure ()
  let strategicPositions := getStrategicPositions size
  match strategicPositions.center.find? (fun center => availableMoves.contains center) with
  | some center => return (some center, st)
  | none => pure ()
  match strategicPositions.corners.find? (fun corner => availableMoves.contains corner) with
  | some corner => return (some corner, st)
  | none => pure ()
  let (r, st) := readRand env st
  if r < MEDIUM_RANDOM_PERCENTAGE then
    let (r2, st) := readRand env st
    return (jsIndex availableMoves ⌊r2 * (availableMoves.length : ℚ)⌋, st)
  let stepEval := fun (acc : Option Nat × XInt × EngineState) (move : Nat) => do
    let testBoard ← makeMove board (move : Int) .O
    let (score, st') ← evaluateBoard testBoard size .O acc.2.2
    if XInt.lt acc.2.1 (.fin score) then
      pure ((some move, XInt.fin score, st') : Option Nat × XInt × EngineState)
    else
      pure (acc.1, acc.2.1, st')
  let acc ← availableMoves.foldlM stepEval (availableMoves.head?, XInt.negInf, st)
  return (acc.1, acc.2.2)

/-- `getEasyMove(board, availableMoves, size)`: defer to Medium with
probability `EASY_SMART_PERCENTAGE`, else sometimes a random center/corner,
else a uniformly random available move. -/
def getEasyMove (env : Env) (board : GameBoard) (availableMoves : List Nat)
    (size : Nat) (st : EngineState) : Except String (Option Nat × EngineState) := do
  let (r1, st) := readRand env st
  if r1 < EASY_SMART_PERCENTAGE then
    getMediumMove env board availableMoves size st
  else
    let strategicPositions := getStrategicPositions size
    let goodMoves := availableMoves.filter fun move =>
      strategicPositions.center.contains move || strategicPositions.corners.contains move
    -- `goodMoves.length > 0 && Math.random() < 0.3`: the draw happens only
    -- when `goodMoves` is nonempty
    if 0 < goodMoves.length then
      let (r2, st) := readRand env st
      if r2 < (3 : ℚ) / 10 then
        let (r3, st) := readRand env st
        return (jsIndex goodMoves ⌊r3 * (goodMoves.length : ℚ)⌋, st)
      else
        let (r4, st) := readRand env st
        return (jsIndex availableMoves ⌊r4 * (availableMoves.length : ℚ)⌋, st)
    else
      let (r4, st) := readRand env st
      return (jsIndex availableMoves ⌊r4 * (availableMoves.length : ℚ)⌋, st)

/-- `getHardMove(board, availableMoves, size)`: immediate win, Medium
fallback above the large-board threshold, full-depth endgame search at or
below the endgame threshold, else iterative deepening. -/
def getHardMove (env : Env) (board : GameBoard) (availableMoves : List Nat)
    (size : Nat) (st : EngineState) : Except String (Option Nat × EngineState) := do
  let w ← firstWinningMove board size .O availableMoves
  match w with
  | some move => return (some move, st)
  | none => pure ()
  if LARGE_BOARD_THRESHOLD < size then
    getMediumMove env board availableMoves size st
  else
    let moveCount := (board.filter fun cell => cell ≠ none).length
    let totalCells := size * size
    let remainingMoves : Int := (totalCells : Int) - (moveCount : Int)
    if remainingMoves ≤ ENDGAME_THRESHOLD then
      let (result, st) ← minimax env (board.length + 1) board 0 true .negInf .posInf size .O
        (some remainingMoves) none st
      match result.bestMove with
      | some m => return (some m, st)
      | none => return (availableMoves.head?, st)
    else if ENABLE_ITERATIVE_DEEPENING then
      let (m, st) := iterativeDeepening env board availableMoves size TIME_LIMIT_MS st
      return (some m, st)
    else
      -- dead code under the current PERFORMANCE_CONFIG, modelled for completeness
      let maxDepth : Int :=
        match MAX_MINIMAX_DEPTH size with
        | some d => (d : Int)
        | none => 4
      let (result, st) ← minimax env (board.length + 1) board 0 true .negInf .posInf size .O
        (some maxDepth) none st
      match result.bestMove with
      | some m => return (some m, st)
      | none => return (availableMoves.head?, st)

/-- `Difficulty` from `types.ts`. -/
inductive Difficulty where
  | easy
  | medium
  | hard
deriving DecidableEq, Repr

/-- The body of the `try` of `getAIMove(board, difficulty, size)`:
validations, cache reinitialization, clock reads, dispatch on difficulty,
then the final legality check falling back to the first available move. -/
def getAIMoveAttempt (env : Env) (board : GameBoard) (difficulty : Difficulty)
    (size : Nat) (st : EngineState) : Except String (Nat × EngineState) :=
  (validateBoardSize size).bind fun _ =>
    if board.length ≠ size * size then
      .error "Board size mismatch"
    else
      let availableMoves := getAvailableMoves board
      if availableMoves.isEmpty then
        .error "No available moves on the board"
      else
        let st :=
          if st.boardEvaluationCache.size = 0
              ∨ getCacheSize size ≠ getCacheSize DEFAULT_BOARD_SIZE then
            initializeCaches size st
          else st
        let (_startTime, st) := readClock env st
        (match difficulty with
          | .easy => getEasyMove env board availableMoves size st
          | .medium => getMediumMove env board availableMoves size st
          | .hard => getHardMove env board availableMoves size st).bind fun moveSt =>
          let (_endTime, st) := readClock env moveSt.2
          let move : Nat :=
            match moveSt.1 with
            | some m => if availableMoves.contains m then m else availableMoves.headD 0
            | none => availableMoves.headD 0
          .ok (move, st)

/-- `getAIMove(board, difficulty, size)`: the `try` body above wrapped in the
`catch` that converts any internal failure into the first available move, or
`-1` when the board is full.  (In JS a caught exception keeps the cache
mutations made before the throw; this model returns the entry state in that
case, which no claim observes.) -/
def getAIMove (env : Env) (board : GameBoard) (difficulty : Difficulty) (size : Nat)
    (st : EngineState) : Int × EngineState :=
  match getAIMoveAttempt env board difficulty size st with
  | .ok (move, st') => ((move : Int), st')
  | .error _ =>
    let availableMoves := getAvailableMoves board
    (if 0 < availableMoves.length then ((availableMoves.headD 0 : Nat) : Int) else -1, st)

/-- The driver as §4.5 of the spec describes it, stated from the spec's words
for comparison with `iterativeDeepening` (C6): run the search repeatedly at
increasing depth, each iteration an independent depth-`d` search (a fresh
transposition table, so a deeper iteration really searches deeper), record
the best move of each iteration that completes within the budget, stop early
on a forced win, and return the move from the deepest completed iteration —
falling back to the first available move if none completed. -/
def specIterativeDeepeningLoop (env : Env) (board : GameBoard) (size : Nat)
    (timeLimit : Int) (startTime : Nat) :
    Nat → Nat → Nat → EngineState → Nat × EngineState
  | 0, _depth, bestMove, st => (bestMove, st)
  | fuelD + 1, depth, bestMove, st =>
    let (now, st) := readClock env st
    if (now : Int) - (startTime : Int) < timeLimit ∧ depth ≤ MAX_SEARCH_DEPTH then
      let stFresh :=
        { st with transpositionTable := LRUCache.init st.transpositionTable.capacity }
      match minimax env (board.length + 1) board 0 true .negInf .posInf size .O
          (some (depth : Int)) (some startTime) stFresh with
      | .error _ => (bestMove, st)
      | .ok (result, st) =>
        let bestMove :=
          match result.bestMove with
          | some m => m
          | none => bestMove
        if XInt.le (.fin ((getDynamicScores size).WIN_SCORE - (depth : Int))) result.score then
          (bestMove, st)
        else
          specIterativeDeepeningLoop env board size timeLimit startTime fuelD (depth + 1)
            bestMove st
    else
      (bestMove, st)

/-- See `specIterativeDeepeningLoop`. -/
def specIterativeDeepening (env : Env) (board : GameBoard) (availableMoves : List Nat)
    (size : Nat) (timeLimit : Int) (st : EngineState) : Nat × EngineState :=
  let (startTime, st) := readClock env st
  let bestMove := availableMoves.headD 0
  specIterativeDeepeningLoop env board size timeLimit startTime (MAX_SEARCH_DEPTH + 1)
    MIN_SEARCH_DEPTH bestMove st

/-- A 3x3 midgame position (X to threaten, O to move): X at 7 and 8, O at 5.
O's correct reply — and the full-depth minimax reply — is to block at 6. -/
def cxBoard : GameBoard :=
  [none, none, none, none, none, some .O, none, some .X, some .X]

/-- An oracle environment whose wall clock never advances (no search is ever
cut off) and whose random stream is constantly 0. -/
def steadyClockEnv : Env :=
  { clock := fun _ => 100, rand := fun _ => 0 }

/-- An oracle environment whose wall clock jumps 5000 ms per reading: the
very first loop check of `iterativeDeepening` is already over budget. -/
def lateClockEnv : Env :=
  { clock := fun i => 5000 * i, rand := fun _ => 0 }

/-- The claim C4 board: `['O','O',null,'X','X',null,null,null,null]`. -/
def c4Board : GameBoard :=
  [some .O, some .O, none, some .X, some .X, none, none, none, none]

/-- The claim C5 board: `['X','X',null,null,null,null,null,null,null]`. -/
def c5Board : GameBoard :=
  [some .X, some .X, none, none, none, none, none, none, none]

/-- A move after which `checkWinner` reports a win for `p` (the test the
win/block loops of `getMediumMove` and `getHardMove` perform). -/
def isWinningMove (board : GameBoard) (size : Nat) (p : Player) (m : Nat) : Bool :=
  match makeMove board (m : Int) p with
  | .error _ => false
  | .ok b' =>
    match checkWinner b' size with
    | .error _ => false
    | .ok w => w = some (.won p)

/-- A JSON value, as `JSON.stringify`/`JSON.parse` transport it.  The engine
only ever serializes plain trees of strings, integral numbers, booleans,
nulls, arrays and objects, on which `JSON.parse(JSON.stringify(v))` is the
identity, so the string representation itself is not modelled: a serialized
state is its tree. -/
inductive Json where
  | str (s : String)
  | num (n : Int)
  | jbool (b : Bool)
  | null
  | arr (xs : List Json)
  | obj (fields : List (String × Json))
deriving Repr

/-- A move record `{player, position}` as the serializer and `replayGame`
receive it: the source's `Player` type is `'X' | 'O' | null`, so the marker
is an `Option`. -/
structure MoveRec where
  player : Option Player
  position : Int
deriving DecidableEq, Repr

/-- A board cell as JSON: `'X'`, `'O'`, or `null`. -/
def cellToJson : Cell → Json
  | some .X => .str "X"
  | some .O => .str "O"
  | none => .null

/-- The unchecked cast of a parsed array element to a cell (the source hands
the parsed array over as a `GameBoard` without validating the elements; the
junk clauses, never exercised by data the serializer wrote, read as `null`). -/
def jsonToCell : Json → Cell
  | .str "X" => some .X
  | .str "O" => some .O
  | _ => none

/-- A move record as JSON. -/
def moveToJson (mv : MoveRec) : Json :=
  .obj [("player", cellToJson mv.player), ("position", .num mv.position)]

/-- Property access `o.k` on a parsed object (`undefined`, i.e. `none`, when
absent or not an object). -/
def jsonLookup : Json → String → Option Json
  | .obj fields, k => (fields.find? fun f => f.1 = k).map fun f => f.2
  | _, _ => none

/-- The unchecked cast of a parsed array element to a move record (the
source hands parsed move objects over without validating them; the junk
clauses read as a `null` player and position 0). -/
def jsonToMove (j : Json) : MoveRec :=
  { player :=
      match jsonLookup j "player" with
      | some (.str "X") => some .X
      | some (.str "O") => some .O
      | _ => none,
    position :=
      match jsonLookup j "position" with
      | some (.num n) => n
      | _ => 0 }

/-- `createEmptyBoard(size)`. -/
def createEmptyBoard (size : Nat) : GameBoard :=
  List.replicate (size * size) none

/-- `serializeBoardState(board, moves, boardSize?)`: compute the size
(`boardSize || Math.sqrt(board.length)`, the JS `||` treating 0 as absent),
validate it (a non-integral square root fails `Number.isInteger` inside
`validateBoardSize`), and build the JSON object; a validation failure is
rethrown to the caller.  `new Date().toISOString()` is the `nowIso`
argument. -/
def serializeBoardState (board : GameBoard) (moves : List MoveRec)
    (boardSize : Option Nat) (nowIso : String) : Except String Json :=
  let mk : Nat → Except String Json := fun size =>
    (validateBoardSize size).bind fun _ =>
      .ok (.obj [("finalBoard", .arr (board.map cellToJson)),
                 ("moves", .arr (moves.map moveToJson)),
                 ("boardSize", .num (size : Int)),
                 ("timestamp", .str nowIso),
                 ("version", .str "2.0")])
  match boardSize with
  | some s =>
    if s = 0 then
      let size := natSqrt board.length
      if size * size ≠ board.length then
        .error "Failed to serialize board state: Invalid board size"
      else mk size
    else mk s
  | none =>
    let size := natSqrt board.length
    if size * size ≠ board.length then
      .error "Failed to serialize board state: Invalid board size"
    else mk size

/-- What `deserializeBoardState` returns. -/
structure DeserializedState where
  finalBoard : GameBoard
  moves : List MoveRec
  boardSize : Nat
  timestamp : String
deriving DecidableEq, Repr

/-- `deserializeBoardState(serialized)`: read each field with its
`Array.isArray`/`typeof` default, validate the size (a failure lands in the
`catch`, which returns a default-size empty board), then rebuild an empty
board on a length mismatch, else return the parsed data.  The `boardSize`
read from JSON is an `Int`; a value outside `[MIN_BOARD_SIZE,
MAX_BOARD_SIZE]` fails validation exactly as in the source. -/
def deserializeBoardState (j : Json) (nowIso : String) : DeserializedState :=
  let finalBoard :=
    match jsonLookup j "finalBoard" with
    | some (.arr xs) => xs.map jsonToCell
    | _ => createEmptyBoard DEFAULT_BOARD_SIZE
  let moves :=
    match jsonLookup j "moves" with
    | some (.arr xs) => xs.map jsonToMove
    | _ => []
  let boardSizeJ : Int :=
    match jsonLookup j "boardSize" with
    | some (.num n) => n
    | _ => (DEFAULT_BOARD_SIZE : Int)
  let timestamp :=
    match jsonLookup j "timestamp" with
    | some (.str s) => s
    | _ => nowIso
  if boardSizeJ < (MIN_BOARD_SIZE : Int) ∨ (MAX_BOARD_SIZE : Int) < boardSizeJ then
    { finalBoard := createEmptyBoard DEFAULT_BOARD_SIZE, moves := [],
      boardSize := DEFAULT_BOARD_SIZE, timestamp := nowIso }
  else
    let boardSize := boardSizeJ.toNat
    if finalBoard.length ≠ boardSize * boardSize then
      { finalBoard := createEmptyBoard boardSize, moves := [],
        boardSize := boardSize, timestamp := nowIso }
    else
      { finalBoard := finalBoard, moves := moves, boardSize := boardSize,
        timestamp := timestamp }

/-- The move loop of `replayGame`: a record whose marker is `null` fails the
`!move.player` guard and is skipped (`continue`); a move that `makeMove`
rejects stops the loop (`break`); an applied move appends a snapshot of the
new board.  (The `!move` and `typeof move.position !== 'number'` parts of
the guard always pass in the typed model.) -/
def replayMoves : List MoveRec → GameBoard → List GameBoard
  | [], _ => []
  | mv :: rest, currentBoard =>
    match mv.player with
    | none => replayMoves rest currentBoard
    | some p =>
      match makeMove currentBoard mv.position p with
      | .error _ => []
      | .ok b' => b' :: replayMoves rest b'

/-- `replayGame(moves, size)`: validate the size (a failure is caught and
returns just the empty board), then replay move by move. -/
def replayGame (moves : List MoveRec) (size : Nat) : List GameBoard :=
  match validateBoardSize size with
  | .error _ => [createEmptyBoard size]
  | .ok _ => createEmptyBoard size :: replayMoves moves (createEmptyBoard size)

/-- One replay snapshot extends the previous board by one marker placed on a
free in-range cell. -/
def snapshotStep (b b' : GameBoard) : Prop :=
  ∃ p pos, pos < b.length ∧ cellAt b pos = none ∧ b' = b.set pos (some p)

theorem getWinningCombinations_eq (size : Nat) :
    getWinningCombinations size =
      (List.range size).map (rowLine size) ++ (List.range size).map (colLine size)
        ++ [mainDiag size, antiDiag size] := rfl

/-! ## C1: equivalence of the two winner-detection paths -/

theorem findSome?_congr {α β : Type _} {f g : α → Option β} {l : List α}
    (h : ∀ x ∈ l, f x = g x) : l.findSome? f = l.findSome? g := by
  induction l with
  | nil => rfl
  | cons a l ih =>
    simp only [List.findSome?_cons, h a (List.mem_cons_self a l)]
    cases g a with
    | some b => rfl
    | none => exact ih fun x hx => h x (List.mem_cons_of_mem a hx)

theorem all_congr' {α : Type _} {f g : α → Bool} {l : List α}
    (h : ∀ x ∈ l, f x = g x) : l.all f = l.all g := by
  induction l with
  | nil => rfl
  | cons a l ih =>
    simp only [List.all_cons, h a (List.mem_cons_self a l)]
    rw [ih fun x hx => h x (List.mem_cons_of_mem a hx)]

theorem cellAtI_natCast (board : GameBoard) (k : Nat) :
    cellAtI board (k : Int) = cellAt board k := by
  simp [cellAtI, cellAt]

/-- A winning combination is uniform: every cell of it holds the winner. -/
theorem combinationWinner_mem (board : GameBoard) (line : List Nat) (p : Player)
    (h : combinationWinner board line = some p) :
    ∀ i ∈ line, cellAt board i = some p := by
  match line with
  | [] => simp [combinationWinner] at h
  | c0 :: rest =>
    cases hc : cellAt board c0 with
    | none => simp [combinationWinner, hc] at h
    | some fc =>
      simp only [combinationWinner, hc] at h
      by_cases hall : ((c0 :: rest).all fun index => decide (cellAt board index = some fc)) = true
      · rw [if_pos hall] at h
        obtain rfl : fc = p := by simpa using h
        intro i hi
        have := List.all_eq_true.mp hall i hi
        simpa using this
      · rw [if_neg hall] at h; cases h

/-- Two winning combinations sharing a cell have the same winner. -/
theorem winner_eq_of_inter (board : GameBoard) (l1 l2 : List Nat) (p q : Player)
    (h1 : combinationWinner board l1 = some p)
    (h2 : combinationWinner board l2 = some q)
    (i : Nat) (hi1 : i ∈ l1) (hi2 : i ∈ l2) : p = q := by
  have e1 := combinationWinner_mem board l1 p h1 i hi1
  have e2 := combinationWinner_mem board l2 q h2 i hi2
  rw [e1] at e2
  exact Option.some.inj e2

theorem mem_rowLine {n r c : Nat} (hc : c < n) : r * n + c ∈ rowLine n r := by
  simp only [rowLine, List.mem_map, List.mem_range]
  exact ⟨c, hc, rfl⟩

theorem mem_colLine {n r c : Nat} (hr : r < n) : r * n + c ∈ colLine n c := by
  simp only [colLine, List.mem_map, List.mem_range]
  exact ⟨r, hr, rfl⟩

theorem mem_mainDiag {n i : Nat} (hi : i < n) : i * n + i ∈ mainDiag n := by
  simp only [mainDiag, List.mem_map, List.mem_range]
  exact ⟨i, hi, rfl⟩

theorem mem_antiDiag {n i : Nat} (hi : i < n) : i * n + (n - 1 - i) ∈ antiDiag n := by
  simp only [antiDiag, List.mem_map, List.mem_range]
  exact ⟨i, hi, rfl⟩

/-- A winning row and a winning column always agree (they meet). -/
theorem row_col_agree (board : GameBoard) {n r c : Nat} {p q : Player}
    (hr : r < n) (hc : c < n)
    (h1 : combinationWinner board (rowLine n r) = some p)
    (h2 : combinationWinner board (colLine n c) = some q) : p = q :=
  winner_eq_of_inter board _ _ p q h1 h2 (r * n + c) (mem_rowLine hc) (mem_colLine hr)

/-- A winning row and a winning main diagonal agree. -/
theorem row_main_agree (board : GameBoard) {n r : Nat} {p q : Player}
    (hr : r < n)
    (h1 : combinationWinner board (rowLine n r) = some p)
    (h2 : combinationWinner board (mainDiag n) = some q) : p = q :=
  winner_eq_of_inter board _ _ p q h1 h2 (r * n + r) (mem_rowLine hr) (mem_mainDiag hr)

/-- A winning row and a winning anti diagonal agree. -/
theorem row_anti_agree (board : GameBoard) {n r : Nat} {p q : Player}
    (hr : r < n)
    (h1 : combinationWinner board (rowLine n r) = some p)
    (h2 : combinationWinner board (antiDiag n) = some q) : p = q :=
  winner_eq_of_inter board _ _ p q h1 h2 (r * n + (n - 1 - r))
    (mem_rowLine (by omega)) (mem_antiDiag hr)

/-- A winning column and a winning main diagonal agree. -/
theorem col_main_agree (board : GameBoard) {n c : Nat} {p q : Player}
    (hc : c < n)
    (h1 : combinationWinner board (colLine n c) = some p)
    (h2 : combinationWinner board (mainDiag n) = some q) : p = q :=
  winner_eq_of_inter board _ _ p q h1 h2 (c * n + c) (mem_colLine hc) (mem_mainDiag hc)

theorem checkLineFromPosition_def (board : GameBoard) (startRow startCol : Nat)
    (dx dy : Int) (size : Nat) :
    checkLineFromPosition board startRow startCol dx dy size =
      match cellAt board (startRow * size + startCol) with
      | none => none
      | some player =>
        if ((startRow : Int) + ((size : Int) - 1) * dx) < 0
            ∨ (size : Int) ≤ ((startRow : Int) + ((size : Int) - 1) * dx)
            ∨ ((startCol : Int) + ((size : Int) - 1) * dy) < 0
            ∨ (size : Int) ≤ ((startCol : Int) + ((size : Int) - 1) * dy) then
          none
        else if (List.range size).all (fun i =>
            cellAtI board (((startRow : Int) + (i : Int) * dx) * size
              + ((startCol : Int) + (i : Int) * dy)) = some player) then
          some player
        else
          none := rfl

theorem combinationWinner_eq_of_head {board : GameBoard} {line : List Nat} {c0 : Nat}
    (h : line.head? = some c0) :
    combinationWinner board line =
      match cellAt board c0 with
      | none => none
      | some fc => if line.all (fun i => cellAt board i = some fc) then some fc else none := by
  cases line with
  | nil => cases h
  | cons a rest =>
    obtain rfl : a = c0 := by simpa using h
    rfl

theorem head?_range {n : Nat} (hn : 1 ≤ n) : (List.range n).head? = some 0 := by
  obtain ⟨m, rfl⟩ : ∃ m, n = m + 1 := ⟨n - 1, by omega⟩
  rw [List.range_succ_eq_map]
  rfl

theorem head?_colLine {n : Nat} (hn : 1 ≤ n) (c : Nat) : (colLine n c).head? = some c := by
  rw [colLine, List.head?_map, head?_range hn]
  simp

theorem head?_rowLine {n : Nat} (hn : 1 ≤ n) (r : Nat) : (rowLine n r).head? = some (r * n) := by
  rw [rowLine, List.head?_map, head?_range hn]
  simp

theorem head?_mainDiag {n : Nat} (hn : 1 ≤ n) : (mainDiag n).head? = some 0 := by
  rw [mainDiag, List.head?_map, head?_range hn]
  simp

theorem head?_antiDiag {n : Nat} (hn : 1 ≤ n) : (antiDiag n).head? = some (n - 1) := by
  rw [antiDiag, List.head?_map, head?_range hn]
  simp

/-- Direction `[1, 0]` at `(r, c)`: the full column `c` when `r = 0`, nothing
otherwise. -/
theorem checkLine_col (board : GameBoard) {n r c : Nat} (hn : 3 ≤ n) (hr : r < n) (hc : c < n) :
    checkLineFromPosition board r c 1 0 n =
      if r = 0 then combinationWinner board (colLine n c) else none := by
  rw [checkLineFromPosition_def]
  by_cases hr0 : r = 0
  · subst hr0
    rw [if_pos rfl, combinationWinner_eq_of_head (head?_colLine (by omega) c)]
    simp only [Nat.zero_mul, Nat.zero_add]
    cases hcell : cellAt board c with
    | none => rfl
    | some player =>
      dsimp only
      rw [if_neg (by push_cast; omega)]
      refine if_congr ?_ rfl rfl
      simp only [List.all_eq_true, decide_eq_true_eq, colLine, List.mem_map, List.mem_range]
      constructor
      · rintro h i ⟨j, hj, rfl⟩
        have := h j hj
        rw [show ((((0 : Nat) : Int)) + (j : Int) * 1) * (n : Int) + ((c : Int) + (j : Int) * 0)
            = ((j * n + c : Nat) : Int) by push_cast; ring, cellAtI_natCast] at this
        exact this
      · intro h j hj
        rw [show ((((0 : Nat) : Int)) + (j : Int) * 1) * (n : Int) + ((c : Int) + (j : Int) * 0)
            = ((j * n + c : Nat) : Int) by push_cast; ring, cellAtI_natCast]
        exact h _ ⟨j, hj, rfl⟩
  · rw [if_neg hr0]
    cases hcell : cellAt board (r * n + c) with
    | none => rfl
    | some player =>
      dsimp only
      rw [if_pos (by omega)]

/-- Direction `[0, 1]` at `(r, c)`: the full row `r` when `c = 0`, nothing
otherwise. -/
theorem checkLine_row (board : GameBoard) {n r c : Nat} (hn : 3 ≤ n) (hr : r < n) (hc : c < n) :
    checkLineFromPosition board r c 0 1 n =
      if c = 0 then combinationWinner board (rowLine n r) else none := by
  rw [checkLineFromPosition_def]
  by_cases hc0 : c = 0
  · subst hc0
    rw [if_pos rfl, combinationWinner_eq_of_head (head?_rowLine (by omega) r)]
    simp only [Nat.add_zero]
    cases hcell : cellAt board (r * n) with
    | none => rfl
    | some player =>
      dsimp only
      rw [if_neg (by push_cast; omega)]
      refine if_congr ?_ rfl rfl
      simp only [List.all_eq_true, decide_eq_true_eq, rowLine, List.mem_map, List.mem_range]
      constructor
      · rintro h i ⟨j, hj, rfl⟩
        have := h j hj
        rw [show ((r : Int) + (j : Int) * 0) * (n : Int) + ((((0 : Nat) : Int)) + (j : Int) * 1)
            = ((r * n + j : Nat) : Int) by push_cast; ring, cellAtI_natCast] at this
        exact this
      · intro h j hj
        rw [show ((r : Int) + (j : Int) * 0) * (n : Int) + ((((0 : Nat) : Int)) + (j : Int) * 1)
            = ((r * n + j : Nat) : Int) by push_cast; ring, cellAtI_natCast]
        exact h _ ⟨j, hj, rfl⟩
  · rw [if_neg hc0]
    cases hcell : cellAt board (r * n + c) with
    | none => rfl
    | some player =>
      dsimp only
      rw [if_pos (by omega)]

/-- Direction `[1, 1]` at `(r, c)`: the main diagonal when `(r, c) = (0, 0)`,
nothing otherwise. -/
theorem checkLine_main (board : GameBoard) {n r c : Nat} (hn : 3 ≤ n) (hr : r < n) (hc : c < n) :
    checkLineFromPosition board r c 1 1 n =
      if r = 0 ∧ c = 0 then combinationWinner board (mainDiag n) else none := by
  rw [checkLineFromPosition_def]
  by_cases h0 : r = 0 ∧ c = 0
  · obtain ⟨rfl, rfl⟩ := h0
    rw [if_pos ⟨rfl, rfl⟩, combinationWinner_eq_of_head (head?_mainDiag (by omega))]
    simp only [Nat.zero_mul, Nat.zero_add]
    cases hcell : cellAt board 0 with
    | none => rfl
    | some player =>
      dsimp only
      rw [if_neg (by push_cast; omega)]
      refine if_congr ?_ rfl rfl
      simp only [List.all_eq_true, decide_eq_true_eq, mainDiag, List.mem_map, List.mem_range]
      constructor
      · rintro h i ⟨j, hj, rfl⟩
        have := h j hj
        rw [show ((((0 : Nat) : Int)) + (j : Int) * 1) * (n : Int)
              + ((((0 : Nat) : Int)) + (j : Int) * 1)
            = ((j * n + j : Nat) : Int) by push_cast; ring, cellAtI_natCast] at this
        exact this
      · intro h j hj
        rw [show ((((0 : Nat) : Int)) + (j : Int) * 1) * (n : Int)
              + ((((0 : Nat) : Int)) + (j : Int) * 1)
            = ((j * n + j : Nat) : Int) by push_cast; ring, cellAtI_natCast]
        exact h _ ⟨j, hj, rfl⟩
  · rw [if_neg h0]
    cases hcell : cellAt board (r * n + c) with
    | none => rfl
    | some player =>
      dsimp only
      have : ¬(r = 0 ∧ c = 0) := h0
      rw [if_pos (by omega)]

/-- Direction `[1, -1]` at `(r, c)`: the anti diagonal when
`(r, c) = (0, n - 1)`, nothing otherwise. -/
theorem checkLine_anti (board : GameBoard) {n r c : Nat} (hn : 3 ≤ n) (hr : r < n) (hc : c < n) :
    checkLineFromPosition board r c 1 (-1) n =
      if r = 0 ∧ c = n - 1 then combinationWinner board (antiDiag n) else none := by
  rw [checkLineFromPosition_def]
  by_cases h0 : r = 0 ∧ c = n - 1
  · obtain ⟨rfl, rfl⟩ := h0
    rw [if_pos ⟨rfl, rfl⟩, combinationWinner_eq_of_head (head?_antiDiag (by omega))]
    simp only [Nat.zero_mul, Nat.zero_add]
    cases hcell : cellAt board (n - 1) with
    | none => rfl
    | some player =>
      dsimp only
      rw [if_neg (by push_cast [Nat.cast_sub (by omega : 1 ≤ n)]; omega)]
      refine if_congr ?_ rfl rfl
      simp only [List.all_eq_true, decide_eq_true_eq, antiDiag, List.mem_map, List.mem_range]
      constructor
      · rintro h i ⟨j, hj, rfl⟩
        have := h j hj
        rw [show ((((0 : Nat) : Int)) + (j : Int) * 1) * (n : Int)
              + (((n - 1 : Nat) : Int) + (j : Int) * (-1))
            = ((j * n + (n - 1 - j) : Nat) : Int) by
          rw [Nat.cast_add, Nat.cast_mul, Nat.cast_sub (by omega : j ≤ n - 1)]
          push_cast
          ring, cellAtI_natCast] at this
        exact this
      · intro h j hj
        rw [show ((((0 : Nat) : Int)) + (j : Int) * 1) * (n : Int)
              + (((n - 1 : Nat) : Int) + (j : Int) * (-1))
            = ((j * n + (n - 1 - j) : Nat) : Int) by
          rw [Nat.cast_add, Nat.cast_mul, Nat.cast_sub (by omega : j ≤ n - 1)]
          push_cast
          ring, cellAtI_natCast]
        exact h _ ⟨j, hj, rfl⟩
  · rw [if_neg h0]
    cases hcell : cellAt board (r * n + c) with
    | none => rfl
    | some player =>
      dsimp only
      have : ¬(r = 0 ∧ c = n - 1) := h0
      rw [if_pos (by omega)]

theorem or_eq_match {α : Type _} (x y : Option α) :
    (match x with | some b => some b | none => y) = x.or y := by
  cases x <;> rfl

theorem dirs_eq (board : GameBoard) {n r c : Nat} (hn : 3 ≤ n) (hr : r < n) (hc : c < n) :
    (DIRECTION_VECTORS.findSome? fun d => checkLineFromPosition board r c d.1 d.2 n)
      = dynCell board n r c := by
  show ([((1 : Int), (0 : Int)), (0, 1), (1, 1), (1, -1)].findSome? fun d =>
      checkLineFromPosition board r c d.1 d.2 n) = dynCell board n r c
  rw [List.findSome?_cons, List.findSome?_cons, List.findSome?_cons, List.findSome?_cons]
  dsimp only
  rw [checkLine_col board hn hr hc, checkLine_row board hn hr hc,
    checkLine_main board hn hr hc, checkLine_anti board hn hr hc]
  simp only [List.findSome?_nil]
  unfold dynCell
  generalize (if r = 0 then combinationWinner board (colLine n c) else none) = x1
  generalize (if c = 0 then combinationWinner board (rowLine n r) else none) = x2
  generalize (if r = 0 ∧ c = 0 then combinationWinner board (mainDiag n) else none) = x3
  generalize (if r = 0 ∧ c = n - 1 then combinationWinner board (antiDiag n) else none) = x4
  cases x1 <;> cases x2 <;> cases x3 <;> cases x4 <;> rfl

theorem or_some_left {α : Type _} (x : α) (y : Option α) : (some x).or y = some x := rfl

/-- The inner column loop of the dynamic scan for a start row `r + 1`: only
the full row `r + 1` fits. -/
theorem dynCell_inner_pos (board : GameBoard) {n : Nat} (hn : 3 ≤ n) (r : Nat) :
    ((List.range n).findSome? fun c => dynCell board n (r + 1) c)
      = combinationWinner board (rowLine n (r + 1)) := by
  have hcell : ∀ c, dynCell board n (r + 1) c
      = if c = 0 then combinationWinner board (rowLine n (r + 1)) else none := by
    intro c
    simp [dynCell]
  obtain ⟨m, rfl⟩ : ∃ m, n = m + 3 := ⟨n - 3, by omega⟩
  rw [show m + 3 = (m + 2) + 1 from rfl, List.range_succ_eq_map]
  rw [List.findSome?_cons]
  rw [hcell 0, if_pos rfl]
  cases hrow : combinationWinner board (rowLine (m + 2 + 1) (r + 1)) with
  | some p => rfl
  | none =>
    dsimp only
    rw [List.findSome?_map]
    rw [List.findSome?_eq_none_iff]
    intro j _
    simp only [Function.comp]
    rw [hcell (Nat.succ j), if_neg (Nat.succ_ne_zero j)]

theorem findSome?_pair {α β : Type _} (f : α → Option β) (a b : α) :
    [a, b].findSome? f = (f a).or (f b) := by
  rw [List.findSome?_cons, List.findSome?_cons, List.findSome?_nil]
  cases f a <;> cases f b <;> rfl

theorem findSome?_range_split {β : Type _} (k : Nat) (f : Nat → Option β) :
    (List.range (k + 1)).findSome? f
      = (f 0).or ((List.range k).findSome? fun j => f (j + 1)) := by
  rw [List.range_succ_eq_map, List.findSome?_cons]
  cases h : f 0 with
  | some b => rfl
  | none =>
    dsimp only
    rw [List.findSome?_map]
    rfl

theorem findSome?_range_last {β : Type _} (k : Nat) (f : Nat → Option β) :
    (List.range (k + 1)).findSome? f = ((List.range k).findSome? f).or (f k) := by
  have hsingle : [k].findSome? f = f k := by
    rw [List.findSome?_cons, List.findSome?_nil]
    cases f k <;> rfl
  rw [show k + 1 = Nat.succ k from rfl, List.range_succ, List.findSome?_append, hsingle]

theorem findSome?_range3_split {β : Type _} (m : Nat) (f : Nat → Option β) :
    (List.range (m + 3)).findSome? f
      = (f 0).or ((List.range (m + 2)).findSome? fun j => f (j + 1)) :=
  findSome?_range_split (m + 2) f

theorem findSome?_range2_last {β : Type _} (m : Nat) (f : Nat → Option β) :
    (List.range (m + 2)).findSome? f
      = ((List.range (m + 1)).findSome? f).or (f (m + 1)) :=
  findSome?_range_last (m + 1) f

/-- The combination-enumeration winner scan and the direction scan agree on
every board, for every board size of the engine's range.  The two scans visit
the same set of lines (full rows, full columns and the two diagonals are the
only length-`size` lines in the four scan directions), visit rows among rows,
columns among columns and the diagonals in the same relative order, and any
two winning lines of different players are parallel, since intersecting lines
share a cell and hence a winner. -/
theorem checkWinnerCombos_eq_dynamic (board : GameBoard) {n : Nat} (hn : 3 ≤ n) :
    checkWinnerCombos board n = checkWinnerDynamic board n := by
  obtain ⟨m, rfl⟩ : ∃ m, n = m + 3 := ⟨n - 3, by omega⟩
  have h3 : 3 ≤ m + 3 := by omega
  have hcom : checkWinnerCombos board (m + 3) =
      ((List.range (m + 3)).findSome? fun r => combinationWinner board (rowLine (m + 3) r)).or
        (((List.range (m + 3)).findSome? fun c => combinationWinner board (colLine (m + 3) c)).or
          ((combinationWinner board (mainDiag (m + 3))).or
            (combinationWinner board (antiDiag (m + 3))))) := by
    rw [checkWinnerCombos, getWinningCombinations_eq, List.findSome?_append,
      List.findSome?_append, findSome?_pair, List.findSome?_map, List.findSome?_map,
      Option.or_assoc]
    rfl
  have hdyn0 : checkWinnerDynamic board (m + 3) =
      (List.range (m + 3)).findSome? fun r =>
        (List.range (m + 3)).findSome? fun c => dynCell board (m + 3) r c := by
    apply findSome?_congr
    intro r hr
    apply findSome?_congr
    intro c hc
    exact dirs_eq board h3 (List.mem_range.mp hr) (List.mem_range.mp hc)
  have hdyn1 : checkWinnerDynamic board (m + 3) =
      ((List.range (m + 3)).findSome? fun c => dynCell board (m + 3) 0 c).or
        ((List.range (m + 2)).findSome? fun j =>
          combinationWinner board (rowLine (m + 3) (j + 1))) := by
    rw [hdyn0, findSome?_range3_split m
      (fun r => (List.range (m + 3)).findSome? fun c => dynCell board (m + 3) r c)]
    congr 1
    apply findSome?_congr
    intro j _
    exact dynCell_inner_pos board h3 j
  have hhead : dynCell board (m + 3) 0 0 =
      (combinationWinner board (colLine (m + 3) 0)).or
        ((combinationWinner board (rowLine (m + 3) 0)).or
          (combinationWinner board (mainDiag (m + 3)))) := by
    rw [dynCell, if_pos rfl, if_pos rfl, if_pos ⟨rfl, rfl⟩,
      if_neg (by omega : ¬((0 : Nat) = 0 ∧ (0 : Nat) = m + 3 - 1)), Option.or_none]
  have htail : ((List.range (m + 2)).findSome? fun j => dynCell board (m + 3) 0 (j + 1)) =
      ((((List.range (m + 1)).findSome? fun j =>
            combinationWinner board (colLine (m + 3) (j + 1))).or
          (combinationWinner board (colLine (m + 3) (m + 2)))).or
        (combinationWinner board (antiDiag (m + 3)))) := by
    have hc : ∀ j, dynCell board (m + 3) 0 (j + 1) =
        (combinationWinner board (colLine (m + 3) (j + 1))).or
          (if j = m + 1 then combinationWinner board (antiDiag (m + 3)) else none) := by
      intro j
      rw [dynCell, if_pos rfl, if_neg (Nat.succ_ne_zero j),
        if_neg (by omega : ¬((0 : Nat) = 0 ∧ j + 1 = 0)),
        if_congr (by omega : ((0 : Nat) = 0 ∧ j + 1 = m + 3 - 1) ↔ j = m + 1) rfl rfl]
      rw [Option.none_or, Option.none_or]
    rw [findSome?_congr fun j _ => hc j,
      findSome?_range2_last m (fun j => (combinationWinner board (colLine (m + 3) (j + 1))).or
        (if j = m + 1 then combinationWinner board (antiDiag (m + 3)) else none))]
    rw [if_pos rfl]
    rw [findSome?_congr (g := fun j => combinationWinner board (colLine (m + 3) (j + 1)))
      fun j hj => by
        rw [if_neg (by have := List.mem_range.mp hj; omega : ¬(j = m + 1)), Option.or_none]]
    rw [Option.or_assoc]
  have hinner0 : ((List.range (m + 3)).findSome? fun c => dynCell board (m + 3) 0 c) =
      ((combinationWinner board (colLine (m + 3) 0)).or
        ((combinationWinner board (rowLine (m + 3) 0)).or
          (combinationWinner board (mainDiag (m + 3))))).or
        ((((List.range (m + 1)).findSome? fun j =>
              combinationWinner board (colLine (m + 3) (j + 1))).or
            (combinationWinner board (colLine (m + 3) (m + 2)))).or
          (combinationWinner board (antiDiag (m + 3)))) := by
    rw [findSome?_range3_split m (fun c => dynCell board (m + 3) 0 c), hhead, htail]
  rw [hcom, hdyn1, hinner0,
    findSome?_range3_split m (fun r => combinationWinner board (rowLine (m + 3) r)),
    findSome?_range3_split m (fun c => combinationWinner board (colLine (m + 3) c)),
    findSome?_range2_last m (fun j => combinationWinner board (colLine (m + 3) (j + 1)))]
  cases hWr0 : combinationWinner board (rowLine (m + 3) 0) with
  | some p =>
    cases hWc0 : combinationWinner board (colLine (m + 3) 0) with
    | some q =>
      obtain rfl : p = q := row_col_agree board (by omega) (by omega) hWr0 hWc0
      simp [hWr0, hWc0, or_some_left]
    | none => simp [hWr0, hWc0, or_some_left, Option.none_or]
  | none =>
    cases hR : (List.range (m + 2)).findSome? (fun j =>
        combinationWinner board (rowLine (m + 3) (j + 1))) with
    | some p =>
      obtain ⟨j, hjmem, hrow⟩ := List.exists_of_findSome?_eq_some hR
      have hjlt : j + 1 < m + 3 := by have := List.mem_range.mp hjmem; omega
      cases hWc0 : combinationWinner board (colLine (m + 3) 0) with
      | some q =>
        obtain rfl : p = q := row_col_agree board hjlt (by omega) hrow hWc0
        simp [hWr0, hR, hWc0, or_some_left, Option.none_or]
      | none =>
        cases hWm : combinationWinner board (mainDiag (m + 3)) with
        | some q =>
          obtain rfl : p = q := row_main_agree board hjlt hrow hWm
          simp [hWr0, hR, hWc0, hWm, or_some_left, Option.none_or]
        | none =>
          cases hCF : (List.range (m + 1)).findSome? (fun j =>
              combinationWinner board (colLine (m + 3) (j + 1))) with
          | some q =>
            obtain ⟨i, himem, hcol⟩ := List.exists_of_findSome?_eq_some hCF
            have hilt : i + 1 < m + 3 := by have := List.mem_range.mp himem; omega
            obtain rfl : p = q := row_col_agree board hjlt hilt hrow hcol
            simp [hWr0, hR, hWc0, hWm, hCF, or_some_left, Option.none_or]
          | none =>
            cases hWcl : combinationWinner board (colLine (m + 3) (m + 2)) with
            | some q =>
              obtain rfl : p = q := row_col_agree board hjlt (by omega) hrow hWcl
              simp [hWr0, hR, hWc0, hWm, hCF, hWcl, or_some_left, Option.none_or]
            | none =>
              cases hWd : combinationWinner board (antiDiag (m + 3)) with
              | some q =>
                obtain rfl : p = q := row_anti_agree board hjlt hrow hWd
                simp [hWr0, hR, hWc0, hWm, hCF, hWcl, hWd, or_some_left, Option.none_or]
              | none =>
                simp [hWr0, hR, hWc0, hWm, hCF, hWcl, hWd, Option.none_or]
    | none =>
      cases hWc0 : combinationWinner board (colLine (m + 3) 0) with
      | some p => simp [hWr0, hR, hWc0, or_some_left, Option.none_or, Option.or_none]
      | none =>
        cases hCF : (List.range (m + 1)).findSome? (fun j =>
            combinationWinner board (colLine (m + 3) (j + 1))) with
        | some p =>
          obtain ⟨i, himem, hcol⟩ := List.exists_of_findSome?_eq_some hCF
          have hilt : i + 1 < m + 3 := by have := List.mem_range.mp himem; omega
          cases hWm : combinationWinner board (mainDiag (m + 3)) with
          | some q =>
            obtain rfl : q = p := (col_main_agree board hilt hcol hWm).symm
            simp [hWr0, hR, hWc0, hCF, hWm, or_some_left, Option.none_or, Option.or_none]
          | none =>
            simp [hWr0, hR, hWc0, hCF, hWm, or_some_left, Option.none_or, Option.or_none]
        | none =>
          cases hWcl : combinationWinner board (colLine (m + 3) (m + 2)) with
          | some p =>
            cases hWm : combinationWinner board (mainDiag (m + 3)) with
            | some q =>
              obtain rfl : q = p := (col_main_agree board (by omega) hWcl hWm).symm
              simp [hWr0, hR, hWc0, hCF, hWcl, hWm, or_some_left, Option.none_or,
                Option.or_none]
            | none =>
              simp [hWr0, hR, hWc0, hCF, hWcl, hWm, or_some_left, Option.none_or,
                Option.or_none]
          | none =>
            simp [hWr0, hR, hWc0, hCF, hWcl, Option.none_or, Option.or_none]

/-- C1: for every integer size with `3 ≤ size ≤ 20` and every board of length
`size * size` whose cells are each `'X'`, `'O'`, or empty, the
combination-enumeration winner check (scanning the lines produced by
`getWinningCombinations(size)`) and the direction-scan winner check
(`checkWinnerDynamic`) report the same winner: one returns a player exactly
when the other returns that same player, and one returns no winner exactly
when the other does; hence `checkWinner`'s `size ≤ 5` branch and its
`size > 5` branch compute the same result on every input. -/
theorem c1_winner_dual_path_equivalence (board : GameBoard) (size : Nat)
    (hsize : 3 ≤ size ∧ size ≤ 20) (hboard : board.length = size * size) :
    checkWinnerCombos board size = checkWinnerDynamic board size :=
  checkWinnerCombos_eq_dynamic board hsize.1

theorem c1_winner_dual_path_equivalence_witness :
    ((3 ≤ 3 ∧ 3 ≤ 20)
      ∧ ([some Player.X, some Player.X, some Player.X,
          none, none, none, none, none, some Player.O] : GameBoard).length = 3 * 3)
      ∧ checkWinnerCombos [some Player.X, some Player.X, some Player.X,
          none, none, none, none, none, some Player.O] 3
        = checkWinnerDynamic [some Player.X, some Player.X, some Player.X,
          none, none, none, none, none, some Player.O] 3 :=
  ⟨⟨⟨by decide, by decide⟩, by decide⟩,
    c1_winner_dual_path_equivalence _ 3 ⟨by decide, by decide⟩ (by decide)⟩

/-! ## C7: LRU facts -/

theorem mapGet_isSome_iff_mem {K V : Type} [DecidableEq K] (k : K) (l : List (K × V)) :
    (mapGet k l).isSome ↔ k ∈ l.map Prod.fst := by
  induction l with
  | nil => simp [mapGet]
  | cons a rest ih =>
    obtain ⟨k', v⟩ := a
    by_cases h : k' = k
    · subst h
      simp [mapGet]
    · simp [mapGet, h, ih, Ne.symm h]

theorem mapGet_set_self {K V : Type} [DecidableEq K] (k : K) (v : V) (l : List (K × V)) :
    mapGet k (mapSet k v l) = some v := by
  induction l with
  | nil => simp [mapGet, mapSet]
  | cons a rest ih =>
    obtain ⟨k', v'⟩ := a
    by_cases h : k' = k
    · subst h
      simp [mapGet, mapSet]
    · simp [mapGet, mapSet, h, ih]

theorem mapGet_set_ne {K V : Type} [DecidableEq K] {k k' : K} (v : V) (l : List (K × V))
    (h : k' ≠ k) : mapGet k' (mapSet k v l) = mapGet k' l := by
  induction l with
  | nil => simp [mapGet, mapSet, Ne.symm h]
  | cons a rest ih =>
    obtain ⟨k'', v''⟩ := a
    by_cases h2 : k'' = k
    · subst h2
      simp [mapGet, mapSet, Ne.symm h]
    · by_cases h3 : k'' = k'
      · subst h3
        simp [mapGet, mapSet, h2]
      · simp [mapGet, mapSet, h2, h3, ih]

theorem map_fst_mapSet {K V : Type} [DecidableEq K] (k : K) (v : V) (l : List (K × V)) :
    (mapSet k v l).map Prod.fst
      = if (mapGet k l).isSome then l.map Prod.fst else l.map Prod.fst ++ [k] := by
  induction l with
  | nil => simp [mapGet, mapSet]
  | cons a rest ih =>
    obtain ⟨k', v'⟩ := a
    by_cases h : k' = k
    · subst h
      simp [mapGet, mapSet]
    · simp only [mapSet, if_neg h, List.map_cons, mapGet, ih]
      by_cases h2 : (mapGet k rest).isSome
      · simp [h, h2]
      · simp [h, h2]

theorem mapDelete_sublist {K V : Type} [DecidableEq K] (k : K) (l : List (K × V)) :
    (mapDelete k l).Sublist l := by
  induction l with
  | nil => simp [mapDelete]
  | cons a rest ih =>
    obtain ⟨k', v'⟩ := a
    by_cases h : k' = k
    · simp only [mapDelete, if_pos h]
      exact (List.sublist_cons_self _ _)
    · simp only [mapDelete, if_neg h]
      exact ih.cons₂ _

theorem mapGet_delete_ne {K V : Type} [DecidableEq K] {k k' : K} (l : List (K × V))
    (h : k' ≠ k) : mapGet k' (mapDelete k l) = mapGet k' l := by
  induction l with
  | nil => simp [mapDelete]
  | cons a rest ih =>
    obtain ⟨k'', v''⟩ := a
    by_cases h2 : k'' = k
    · subst h2
      simp [mapDelete, mapGet, Ne.symm h]
    · by_cases h3 : k'' = k'
      · subst h3
        simp [mapDelete, mapGet, h2]
      · simp [mapDelete, mapGet, h2, h3, ih]

theorem mapGet_delete_self {K V : Type} [DecidableEq K] (k : K) (l : List (K × V))
    (hnd : (l.map Prod.fst).Nodup) : mapGet k (mapDelete k l) = none := by
  induction l with
  | nil => simp [mapDelete, mapGet]
  | cons a rest ih =>
    obtain ⟨k', v'⟩ := a
    simp only [List.map_cons, List.nodup_cons] at hnd
    by_cases h : k' = k
    · subst h
      simp only [mapDelete, if_pos rfl]
      rw [← Option.not_isSome_iff_eq_none, mapGet_isSome_iff_mem]
      exact hnd.1
    · simp [mapDelete, mapGet, h, ih hnd.2]

theorem length_mapSet_absent {K V : Type} [DecidableEq K] {k : K} (v : V) (l : List (K × V))
    (h : mapGet k l = none) : (mapSet k v l).length = l.length + 1 := by
  induction l with
  | nil => simp [mapSet]
  | cons a rest ih =>
    obtain ⟨k', v'⟩ := a
    by_cases h2 : k' = k
    · subst h2
      simp [mapGet] at h
    · simp only [mapGet, if_neg h2] at h
      simp [mapSet, h2, ih h]

theorem length_mapSet_present {K V : Type} [DecidableEq K] {k : K} (v : V) (l : List (K × V))
    (h : (mapGet k l).isSome) : (mapSet k v l).length = l.length := by
  induction l with
  | nil => simp [mapGet] at h
  | cons a rest ih =>
    obtain ⟨k', v'⟩ := a
    by_cases h2 : k' = k
    · subst h2
      simp [mapSet]
    · simp only [mapGet, if_neg h2] at h
      simp [mapSet, h2, ih h]

theorem length_mapDelete_present {K V : Type} [DecidableEq K] {k : K} (l : List (K × V))
    (h : (mapGet k l).isSome) : (mapDelete k l).length + 1 = l.length := by
  induction l with
  | nil => simp [mapGet] at h
  | cons a rest ih =>
    obtain ⟨k', v'⟩ := a
    by_cases h2 : k' = k
    · subst h2
      simp [mapDelete]
    · simp only [mapGet, if_neg h2] at h
      simp [mapDelete, h2, ih h]

theorem eraseKey_of_not_mem {K : Type} [DecidableEq K] {k : K} {l : List K}
    (h : k ∉ l) : eraseKey k l = l := by
  induction l with
  | nil => rfl
  | cons a rest ih =>
    simp only [List.mem_cons, not_or] at h
    simp [eraseKey, Ne.symm h.1, ih h.2]

theorem eraseKey_sublist {K : Type} [DecidableEq K] (k : K) (l : List K) :
    (eraseKey k l).Sublist l := by
  induction l with
  | nil => simp [eraseKey]
  | cons a rest ih =>
    by_cases h : a = k
    · simp only [eraseKey, if_pos h]
      exact List.sublist_cons_self _ _
    · simp only [eraseKey, if_neg h]
      exact ih.cons₂ _

theorem mem_eraseKey {K : Type} [DecidableEq K] {k k' : K} {l : List K} (hnd : l.Nodup) :
    k' ∈ eraseKey k l ↔ k' ∈ l ∧ k' ≠ k := by
  induction l with
  | nil => simp [eraseKey]
  | cons a rest ih =>
    simp only [List.nodup_cons] at hnd
    by_cases h : a = k
    · subst h
      simp only [eraseKey, if_pos rfl, List.mem_cons]
      constructor
      · intro hm
        refine ⟨Or.inr hm, ?_⟩
        rintro rfl
        exact hnd.1 hm
      · rintro ⟨(rfl | hm), hne⟩
        · exact absurd rfl hne
        · exact hm
    · simp only [eraseKey, if_neg h, List.mem_cons, ih hnd.2]
      constructor
      · rintro (rfl | ⟨hm, hne⟩)
        · exact ⟨Or.inl rfl, h⟩
        · exact ⟨Or.inr hm, hne⟩
      · rintro ⟨(rfl | hm), hne⟩
        · exact Or.inl rfl
        · exact Or.inr ⟨hm, hne⟩

theorem mem_setAdd {K : Type} [DecidableEq K] {k k' : K} {l : List K} :
    k' ∈ setAdd k l ↔ k' ∈ l ∨ k' = k := by
  by_cases h : k ∈ l
  · simp only [setAdd, if_pos h]
    constructor
    · exact Or.inl
    · rintro (hm | rfl)
      · exact hm
      · exact h
  · simp [setAdd, if_neg h]

theorem nodup_setAdd {K : Type} [DecidableEq K] {k : K} {l : List K} (hnd : l.Nodup) :
    (setAdd k l).Nodup := by
  by_cases h : k ∈ l
  · simpa [setAdd, if_pos h] using hnd
  · simp only [setAdd, if_neg h]
    simpa [List.nodup_append] using ⟨hnd, fun hm => h hm⟩

theorem getLast?_append_singleton {K : Type} (l : List K) (k : K) :
    (l ++ [k]).getLast? = some k := by
  simp [List.getLast?_append]

theorem getLast?_setAdd_not_mem {K : Type} [DecidableEq K] {k : K} {l : List K}
    (h : k ∉ l) : (setAdd k l).getLast? = some k := by
  rw [setAdd, if_neg h]
  exact getLast?_append_singleton l k

theorem length_eraseKey_mem {K : Type} [DecidableEq K] {k : K} {l : List K} (h : k ∈ l) :
    (eraseKey k l).length + 1 = l.length := by
  induction l with
  | nil => cases h
  | cons a rest ih =>
    by_cases h2 : a = k
    · simp [eraseKey, h2]
    · have : k ∈ rest := by
        rcases List.mem_cons.mp h with rfl | hm
        · exact absurd rfl h2
        · exact hm
      simp [eraseKey, h2, ih this]

theorem lruWF_length_eq {K V : Type} [DecidableEq K] {cache : List (K × V)} {usage : List K}
    (h : lruWF cache usage) : cache.length = usage.length := by
  have hperm : List.Perm (cache.map Prod.fst) usage :=
    (List.perm_ext_iff_of_nodup h.1 h.2.1).mpr fun k => by
      rw [← mapGet_isSome_iff_mem]
      exact h.2.2 k
  simpa using hperm.length_eq

theorem eraseKey_cons_self {K : Type} [DecidableEq K] (k : K) (rest : List K) :
    eraseKey k (k :: rest) = rest := by
  simp [eraseKey]

/-- Refreshing a present key keeps an LRU cache well formed. -/
theorem lruWF_refresh {K V : Type} [DecidableEq K] {cache : List (K × V)} {usage : List K}
    (h : lruWF cache usage) (k : K) (v : V) (hpres : (mapGet k cache).isSome) :
    lruWF (mapSet k v cache) (setAdd k (eraseKey k usage)) := by
  refine ⟨?_, nodup_setAdd (h.2.1.sublist (eraseKey_sublist k usage)), fun k' => ?_⟩
  · rw [map_fst_mapSet, if_pos hpres]
    exact h.1
  · rw [mem_setAdd, mem_eraseKey h.2.1]
    rcases Decidable.em (k' = k) with rfl | hne
    · simp [mapGet_set_self]
    · rw [mapGet_set_ne v cache hne]
      constructor
      · intro hs
        exact Or.inl ⟨(h.2.2 k').mp hs, hne⟩
      · rintro (⟨hm, _⟩ | rfl)
        · exact (h.2.2 k').mpr hm
        · exact absurd rfl hne

/-- Inserting an absent key keeps an LRU cache well formed. -/
theorem lruWF_insert {K V : Type} [DecidableEq K] {cache : List (K × V)} {usage : List K}
    (h : lruWF cache usage) (k : K) (v : V) (habs : mapGet k cache = none) :
    lruWF (mapSet k v cache) (setAdd k usage) := by
  have hknotin : k ∉ usage := fun hm => by
    have := (h.2.2 k).mpr hm
    rw [habs] at this
    cases this
  refine ⟨?_, nodup_setAdd h.2.1, fun k' => ?_⟩
  · rw [map_fst_mapSet, if_neg (by simp [habs])]
    rw [List.nodup_append]
    refine ⟨h.1, List.nodup_singleton k, ?_⟩
    intro a ha hb
    simp only [List.mem_singleton] at hb
    subst hb
    have : (mapGet a cache).isSome := (mapGet_isSome_iff_mem a cache).mpr ha
    rw [habs] at this
    cases this
  · rw [mem_setAdd]
    rcases Decidable.em (k' = k) with rfl | hne
    · simp [mapGet_set_self]
    · rw [mapGet_set_ne v cache hne, h.2.2 k']
      constructor
      · exact Or.inl
      · rintro (hm | rfl)
        · exact hm
        · exact absurd rfl hne

/-- Evicting a key keeps an LRU cache well formed. -/
theorem lruWF_evict {K V : Type} [DecidableEq K] {cache : List (K × V)} {usage : List K}
    (h : lruWF cache usage) (lru : K) :
    lruWF (mapDelete lru cache) (eraseKey lru usage) := by
  refine ⟨h.1.sublist ((mapDelete_sublist lru cache).map Prod.fst),
    h.2.1.sublist (eraseKey_sublist lru usage), fun k' => ?_⟩
  rw [mem_eraseKey h.2.1]
  rcases Decidable.em (k' = lru) with rfl | hne
  · rw [mapGet_delete_self k' cache h.1]
    simp
  · rw [mapGet_delete_ne cache hne, h.2.2 k']
    constructor
    · intro hm
      exact ⟨hm, hne⟩
    · exact And.left

theorem LRUCache.WF.init {K V : Type} [DecidableEq K] (cap : Nat) :
    (LRUCache.init cap : LRUCache K V).WF := by
  refine ⟨List.nodup_nil, List.nodup_nil, fun k => ?_⟩
  simp [LRUCache.init, mapGet]

theorem LRUCache.get_cache {K V : Type} [DecidableEq K] (c : LRUCache K V) (k : K) :
    ((c.get k).2.cache = c.cache) ∧ ((c.get k).2.capacity = c.capacity) := by
  rw [LRUCache.get]
  by_cases h : (mapGet k c.cache).isSome <;> simp [h]

theorem LRUCache.WF.get {K V : Type} [DecidableEq K] {c : LRUCache K V} (hWF : c.WF)
    (k : K) : (c.get k).2.WF := by
  rw [LRUCache.get]
  by_cases h : (mapGet k c.cache).isSome
  · rw [if_pos h]
    show lruWF c.cache (setAdd k (eraseKey k c.usage))
    have hmem : k ∈ c.usage := (hWF.2.2 k).mp h
    refine ⟨hWF.1, nodup_setAdd (hWF.2.1.sublist (eraseKey_sublist k c.usage)), fun k' => ?_⟩
    rw [mem_setAdd, mem_eraseKey hWF.2.1]
    constructor
    · intro hs
      rcases Decidable.em (k' = k) with rfl | hne
      · exact Or.inr rfl
      · exact Or.inl ⟨(hWF.2.2 k').mp hs, hne⟩
    · rintro (⟨hm, _⟩ | rfl)
      · exact (hWF.2.2 k').mpr hm
      · exact h
  · rw [if_neg h]
    exact hWF

theorem LRUCache.WF.set {K V : Type} [DecidableEq K] {c : LRUCache K V} (hWF : c.WF)
    (k : K) (v : V) : (c.set k v).WF := by
  rw [LRUCache.set]
  by_cases h : (mapGet k c.cache).isSome
  · rw [if_pos h]
    exact lruWF_refresh hWF k v h
  · rw [if_neg h]
    have habs : mapGet k c.cache = none := Option.not_isSome_iff_eq_none.mp h
    by_cases hfull : c.capacity ≤ c.cache.length
    · simp only [if_pos hfull]
      cases husage : c.usage with
      | nil =>
        dsimp only
        exact lruWF_insert hWF k v habs
      | cons lru rest =>
        dsimp only
        have hWF' := lruWF_evict hWF lru
        rw [husage, eraseKey_cons_self] at hWF'
        have habs' : mapGet k (mapDelete lru c.cache) = none := by
          have hklru : k ≠ lru := by
            intro he
            subst he
            have hmem : k ∈ c.usage := by
              rw [husage]
              exact List.mem_cons_self k rest
            have := (hWF.2.2 k).mpr hmem
            rw [habs] at this
            cases this
          rw [mapGet_delete_ne c.cache hklru]
          exact habs
        have hins := lruWF_insert hWF' k v habs'
        rw [show eraseKey lru (lru :: rest) = rest from eraseKey_cons_self lru rest]
        exact hins
    · simp only [if_neg hfull]
      exact lruWF_insert hWF k v habs

theorem LRUCache.set_capacity {K V : Type} [DecidableEq K] (c : LRUCache K V) (k : K) (v : V) :
    (c.set k v).capacity = c.capacity := by
  rw [LRUCache.set]
  by_cases h : (mapGet k c.cache).isSome
  · rw [if_pos h]
  · rw [if_neg h]
    by_cases hfull : c.capacity ≤ c.cache.length
    · simp only [if_pos hfull]
      cases c.usage <;> rfl
    · simp only [if_neg hfull]

theorem LRUCache.size_set_le {K V : Type} [DecidableEq K] {c : LRUCache K V} (hWF : c.WF)
    (hcap : 1 ≤ c.capacity) (hle : c.size ≤ c.capacity) (k : K) (v : V) :
    (c.set k v).size ≤ c.capacity := by
  rw [LRUCache.set]
  by_cases h : (mapGet k c.cache).isSome
  · rw [if_pos h]
    show (mapSet k v c.cache).length ≤ c.capacity
    rw [length_mapSet_present v c.cache h]
    exact hle
  · rw [if_neg h]
    have habs : mapGet k c.cache = none := Option.not_isSome_iff_eq_none.mp h
    by_cases hfull : c.capacity ≤ c.cache.length
    · simp only [if_pos hfull]
      have hlen : c.cache.length = c.capacity := le_antisymm hle hfull
      have husagelen : c.usage.length = c.capacity := by
        rw [← lruWF_length_eq hWF]
        exact hlen
      cases husage : c.usage with
      | nil =>
        rw [husage] at husagelen
        simp at husagelen
        omega
      | cons lru rest =>
        dsimp only
        show (mapSet k v (mapDelete lru c.cache)).length ≤ c.capacity
        have hlrupres : (mapGet lru c.cache).isSome := by
          apply (hWF.2.2 lru).mpr
          rw [husage]
          exact List.mem_cons_self lru rest
        have habs' : mapGet k (mapDelete lru c.cache) = none := by
          have hklru : k ≠ lru := by
            intro he
            rw [he, Option.isSome_iff_exists] at h
            rw [Option.isSome_iff_exists] at hlrupres
            exact h hlrupres
          rw [mapGet_delete_ne c.cache hklru]
          exact habs
        rw [length_mapSet_absent v _ habs']
        have := length_mapDelete_present c.cache hlrupres
        omega
    · simp only [if_neg hfull]
      show (mapSet k v c.cache).length ≤ c.capacity
      rw [length_mapSet_absent v _ habs]
      omega

theorem applyOps_WF {K V : Type} [DecidableEq K] {c : LRUCache K V} (hWF : c.WF)
    (ops : List (CacheOp K V)) : (applyOps c ops).WF := by
  induction ops generalizing c with
  | nil => exact hWF
  | cons op rest ih =>
    cases op with
    | get k => exact ih (hWF.get k)
    | set k v => exact ih (hWF.set k v)

theorem applyOps_capacity {K V : Type} [DecidableEq K] (c : LRUCache K V)
    (ops : List (CacheOp K V)) : (applyOps c ops).capacity = c.capacity := by
  induction ops generalizing c with
  | nil => rfl
  | cons op rest ih =>
    cases op with
    | get k => rw [applyOps, List.foldl_cons, ← applyOps, ih, applyOp, (LRUCache.get_cache c k).2]
    | set k v => rw [applyOps, List.foldl_cons, ← applyOps, ih, applyOp, LRUCache.set_capacity]

theorem applyOps_size_le {K V : Type} [DecidableEq K] {c : LRUCache K V} (hWF : c.WF)
    (hcap : 1 ≤ c.capacity) (hle : c.size ≤ c.capacity) (ops : List (CacheOp K V)) :
    (applyOps c ops).size ≤ c.capacity := by
  induction ops generalizing c with
  | nil => exact hle
  | cons op rest ih =>
    cases op with
    | get k =>
      rw [applyOps, List.foldl_cons, ← applyOps]
      show (applyOps (c.get k).2 rest).size ≤ c.capacity
      have hsz : ((c.get k).2).size = c.size := by
        show ((c.get k).2).cache.length = c.cache.length
        rw [(LRUCache.get_cache c k).1]
      have hcp := (LRUCache.get_cache c k).2
      have := ih (c := (c.get k).2) (hWF.get k) (by omega) (by omega)
      omega
    | set k v =>
      rw [applyOps, List.foldl_cons, ← applyOps]
      show (applyOps (c.set k v) rest).size ≤ c.capacity
      have hsz := LRUCache.size_set_le hWF hcap hle k v
      have hcp := LRUCache.set_capacity c k v
      have := ih (c := c.set k v) (hWF.set k v) (by omega) (by omega)
      omega

theorem LRUCache.get_mru {K V : Type} [DecidableEq K] {c : LRUCache K V} (hWF : c.WF)
    {k : K} (hpres : (mapGet k c.cache).isSome) :
    (c.get k).2.usage.getLast? = some k := by
  rw [LRUCache.get, if_pos hpres]
  apply getLast?_setAdd_not_mem
  rw [mem_eraseKey hWF.2.1]
  rintro ⟨_, hne⟩
  exact hne rfl

theorem LRUCache.set_mru {K V : Type} [DecidableEq K] {c : LRUCache K V} (hWF : c.WF)
    {k : K} (v : V) (hpres : (mapGet k c.cache).isSome) :
    (c.set k v).usage.getLast? = some k := by
  rw [LRUCache.set, if_pos hpres]
  apply getLast?_setAdd_not_mem
  rw [mem_eraseKey hWF.2.1]
  rintro ⟨_, hne⟩
  exact hne rfl

/-- `set` of an absent key on a full well-formed cache evicts exactly the
least recently used key (the head of `usage`) and inserts the new one. -/
theorem LRUCache.set_evicts {K V : Type} [DecidableEq K] {c : LRUCache K V} (hWF : c.WF)
    (hcap : 1 ≤ c.capacity) {k : K} (v : V) (habs : mapGet k c.cache = none)
    (hfull : c.size = c.capacity) :
    ∃ lru rest, c.usage = lru :: rest
      ∧ (c.set k v).size = c.capacity
      ∧ ∀ k', (mapGet k' (c.set k v).cache).isSome
          ↔ (k' = k ∨ ((mapGet k' c.cache).isSome ∧ k' ≠ lru)) := by
  have husagelen : c.usage.length = c.capacity := by
    rw [← lruWF_length_eq hWF]
    exact hfull
  have h : ¬(mapGet k c.cache).isSome = true := by
    rw [habs]
    simp
  have hfull' : c.capacity ≤ c.cache.length := le_of_eq hfull.symm
  cases husage : c.usage with
  | nil =>
    rw [husage] at husagelen
    simp at husagelen
    omega
  | cons lru rest =>
    refine ⟨lru, rest, rfl, ?_, ?_⟩
    all_goals rw [LRUCache.set, if_neg h]
    all_goals simp only [if_pos hfull', husage]
    · show (mapSet k v (mapDelete lru c.cache)).length = c.capacity
      have hlrupres : (mapGet lru c.cache).isSome := by
        apply (hWF.2.2 lru).mpr
        rw [husage]
        exact List.mem_cons_self lru rest
      have hklru : k ≠ lru := by
        intro he
        rw [← he, habs] at hlrupres
        cases hlrupres
      have habs' : mapGet k (mapDelete lru c.cache) = none := by
        rw [mapGet_delete_ne c.cache hklru]
        exact habs
      rw [length_mapSet_absent v _ habs']
      have := length_mapDelete_present c.cache hlrupres
      have hsz : c.cache.length = c.capacity := hfull
      omega
    · intro k'
      show (mapGet k' (mapSet k v (mapDelete lru c.cache))).isSome
          ↔ (k' = k ∨ ((mapGet k' c.cache).isSome ∧ k' ≠ lru))
      rcases Decidable.em (k' = k) with rfl | hnek
      · simp [mapGet_set_self]
      · rw [mapGet_set_ne v _ hnek]
        rcases Decidable.em (k' = lru) with rfl | hnelru
        · rw [mapGet_delete_self k' c.cache hWF.1]
          simp [hnek]
        · rw [mapGet_delete_ne c.cache hnelru]
          constructor
          · intro hs
            exact Or.inr ⟨hs, hnelru⟩
          · rintro (rfl | ⟨hs, _⟩)
            · exact absurd rfl hnek
            · exact hs

/-- C7: for every `LRUCache` constructed with capacity `cap ≥ 1` and every
finite sequence of `get` and `set` operations: the reported size never
exceeds `cap` after any operation; a `set` of a key not currently present
while the size equals `cap` removes exactly one entry — the key least
recently touched by a `get` or `set` (the head of the recency list) — before
inserting the new key; and a `get` or `set` of a present key makes that key
the most recently used. -/
theorem c7_lru_cache_invariants {K V : Type} [DecidableEq K] (cap : Nat) (hcap : 1 ≤ cap) :
    (∀ ops : List (CacheOp K V), (applyOps (LRUCache.init cap) ops).size ≤ cap)
    ∧ (∀ (ops : List (CacheOp K V)) (k : K) (v : V),
        mapGet k (applyOps (LRUCache.init cap) ops).cache = none →
        (applyOps (LRUCache.init cap) ops).size = cap →
        ∃ lru rest, (applyOps (LRUCache.init cap) ops).usage = lru :: rest
          ∧ ((applyOps (LRUCache.init cap) ops).set k v).size = cap
          ∧ ∀ k', (mapGet k' ((applyOps (LRUCache.init cap) ops).set k v).cache).isSome
              ↔ (k' = k ∨ ((mapGet k' (applyOps (LRUCache.init cap) ops).cache).isSome
                    ∧ k' ≠ lru)))
    ∧ (∀ (ops : List (CacheOp K V)) (k : K) (v : V),
        (mapGet k (applyOps (LRUCache.init cap) ops).cache).isSome →
        (((applyOps (LRUCache.init cap) ops).get k).2.usage.getLast? = some k
          ∧ ((applyOps (LRUCache.init cap) ops).set k v).usage.getLast? = some k)) := by
  refine ⟨?_, ?_, ?_⟩
  · intro ops
    exact applyOps_size_le (LRUCache.WF.init cap) hcap (by simp [LRUCache.size, LRUCache.init]) ops
  · intro ops k v habs hfull
    have hWF := applyOps_WF (LRUCache.WF.init cap) ops
    have hcap' : 1 ≤ (applyOps (LRUCache.init cap : LRUCache K V) ops).capacity := by
      rw [applyOps_capacity]
      exact hcap
    have hfull' : (applyOps (LRUCache.init cap : LRUCache K V) ops).size
        = (applyOps (LRUCache.init cap : LRUCache K V) ops).capacity := by
      rw [applyOps_capacity]
      exact hfull
    obtain ⟨lru, rest, h1, h2, h3⟩ := LRUCache.set_evicts hWF hcap' v habs hfull'
    rw [applyOps_capacity] at h2
    exact ⟨lru, rest, h1, h2, h3⟩
  · intro ops k v hpres
    have hWF := applyOps_WF (LRUCache.WF.init cap) ops
    exact ⟨LRUCache.get_mru hWF hpres, LRUCache.set_mru hWF v hpres⟩

theorem c7_lru_cache_invariants_witness :
    ((applyOps (LRUCache.init 2 : LRUCache Nat Nat)
        [.set 1 10, .set 2 20, .set 3 30]).size ≤ 2)
    ∧ (∃ lru rest, (applyOps (LRUCache.init 2 : LRUCache Nat Nat)
          [.set 1 10, .set 2 20]).usage = lru :: rest
        ∧ ((applyOps (LRUCache.init 2 : LRUCache Nat Nat) [.set 1 10, .set 2 20]).set 3 30).size
            = 2
        ∧ ∀ k', (mapGet k' ((applyOps (LRUCache.init 2 : LRUCache Nat Nat)
              [.set 1 10, .set 2 20]).set 3 30).cache).isSome
            ↔ (k' = 3 ∨ ((mapGet k' (applyOps (LRUCache.init 2 : LRUCache Nat Nat)
                  [.set 1 10, .set 2 20]).cache).isSome ∧ k' ≠ lru)))
    ∧ (((applyOps (LRUCache.init 2 : LRUCache Nat Nat)
        [.set 1 10, .set 2 20]).get 1).2.usage.getLast? = some 1) :=
  ⟨(c7_lru_cache_invariants 2 (by decide)).1 [.set 1 10, .set 2 20, .set 3 30],
   (c7_lru_cache_invariants 2 (by decide)).2.1 [.set 1 10, .set 2 20] 3 30
     (by decide) (by decide),
   ((c7_lru_cache_invariants 2 (by decide)).2.2 [.set 1 10, .set 2 20] 1 0 (by decide)).1⟩

/-! ## C6: what the iterative-deepening driver actually returns -/

theorem except_bind_ok {ε α β : Type _} {x : Except ε α} {f : α → Except ε β} {b : β} :
    (x >>= f) = .ok b ↔ ∃ a, x = .ok a ∧ f a = .ok b := by
  cases x <;> simp [Bind.bind, Except.bind]

theorem insertDesc_perm (p : Nat × Int) (l : List (Nat × Int)) :
    List.Perm (insertDesc p l) (p :: l) := by
  induction l with
  | nil => exact List.Perm.refl _
  | cons q rest ih =>
    by_cases h : q.2 < p.2
    · rw [insertDesc, if_pos h]
    · rw [insertDesc, if_neg h]
      exact (ih.cons q).trans (List.Perm.swap p q rest)

theorem foldl_insertDesc_perm (l acc : List (Nat × Int)) :
    List.Perm (l.foldl (fun a p => insertDesc p a) acc) (acc ++ l) := by
  induction l generalizing acc with
  | nil => simp
  | cons p rest ih =>
    rw [List.foldl_cons]
    refine (ih (insertDesc p acc)).trans ?_
    refine (((insertDesc_perm p acc).append_right rest).trans ?_)
    exact List.perm_middle.symm

theorem stableSortDesc_perm (l : List (Nat × Int)) :
    List.Perm (stableSortDesc l) l := by
  simpa using foldl_insertDesc_perm l []

theorem movePriorities_fst (board : GameBoard) (size : Nat) (player : Player) :
    ∀ (l : List Nat) (lp : List (Nat × Int)),
      movePriorities board size player l = .ok lp → lp.map Prod.fst = l := by
  intro l
  induction l with
  | nil =>
    intro lp h
    simp only [movePriorities] at h
    cases h
    rfl
  | cons mv rest ih =>
    intro lp h
    simp only [movePriorities] at h
    rcases except_bind_ok.mp h with ⟨p, _hp, h2⟩
    rcases except_bind_ok.mp h2 with ⟨others, ho, h3⟩
    simp only [pure, Except.pure, Except.ok.injEq] at h3
    subst h3
    simp [ih others ho]

theorem orderMoves_perm {availableMoves : List Nat} {board : GameBoard} {size : Nat}
    {player : Player} {l : List Nat}
    (h : orderMoves availableMoves board size player = .ok l) :
    List.Perm l availableMoves := by
  simp only [orderMoves, ENABLE_MOVE_ORDERING, if_pos] at h
  rcases except_bind_ok.mp h with ⟨wp, hwp, h2⟩
  simp only [pure, Except.pure, Except.ok.injEq] at h2
  subst h2
  have := (stableSortDesc_perm wp).map Prod.fst
  rw [movePriorities_fst board size player availableMoves wp hwp] at this
  exact this

theorem minimaxMaxLoop_bestMove (board : GameBoard) (player : Player)
    (recur : GameBoard → XInt → XInt → EngineState → Except String (XInt × EngineState)) :
    ∀ (moves : List Nat) (al be bs : XInt) (bm : Option Nat) (st : EngineState)
      (bs' : XInt) (bm' : Option Nat) (flag : TTFlag) (st' : EngineState),
      minimaxMaxLoop board player recur moves al be bs bm st = .ok ((bs', bm', flag), st') →
      ∀ m, bm' = some m → m ∈ moves ∨ bm = some m := by
  intro moves
  induction moves with
  | nil =>
    intro al be bs bm st bs' bm' flag st' h m hm
    simp only [minimaxMaxLoop, Except.ok.injEq, Prod.mk.injEq] at h
    right
    rw [h.1.2.1]
    exact hm
  | cons move rest ih =>
    intro al be bs bm st bs' bm' flag st' h m hm
    simp only [minimaxMaxLoop] at h
    rcases except_bind_ok.mp h with ⟨nb, _hnb, h2⟩
    rcases except_bind_ok.mp h2 with ⟨⟨score, st2⟩, _hrec, h3⟩
    dsimp only at h3
    by_cases hbr : XInt.le be (XInt.max al score) = true
    · rw [if_pos hbr] at h3
      simp only [Except.ok.injEq, Prod.mk.injEq] at h3
      obtain ⟨⟨_, hbm', _⟩, _⟩ := h3
      rw [← hbm'] at hm
      by_cases hup : XInt.lt bs score = true
      · rw [if_pos hup] at hm
        simp only at hm
        left
        rw [← Option.some.inj hm]
        exact List.mem_cons_self move rest
      · rw [if_neg hup] at hm
        simp only at hm
        right
        exact hm
    · rw [if_neg hbr] at h3
      rcases ih _ _ _ _ _ _ _ _ _ h3 m hm with hmem | hbm
      · exact Or.inl (List.mem_cons_of_mem move hmem)
      · by_cases hup : XInt.lt bs score = true
        · rw [if_pos hup] at hbm
          simp only at hbm
          left
          rw [← Option.some.inj hbm]
          exact List.mem_cons_self move rest
        · rw [if_neg hup] at hbm
          simp only at hbm
          right
          exact hbm

theorem minimaxMinLoop_bestMove (board : GameBoard) (player : Player)
    (recur : GameBoard → XInt → XInt → EngineState → Except String (XInt × EngineState)) :
    ∀ (moves : List Nat) (al be bs : XInt) (bm : Option Nat) (st : EngineState)
      (bs' : XInt) (bm' : Option Nat) (flag : TTFlag) (st' : EngineState),
      minimaxMinLoop board player recur moves al be bs bm st = .ok ((bs', bm', flag), st') →
      ∀ m, bm' = some m → m ∈ moves ∨ bm = some m := by
  intro moves
  induction moves with
  | nil =>
    intro al be bs bm st bs' bm' flag st' h m hm
    simp only [minimaxMinLoop, Except.ok.injEq, Prod.mk.injEq] at h
    right
    rw [h.1.2.1]
    exact hm
  | cons move rest ih =>
    intro al be bs bm st bs' bm' flag st' h m hm
    simp only [minimaxMinLoop] at h
    rcases except_bind_ok.mp h with ⟨nb, _hnb, h2⟩
    rcases except_bind_ok.mp h2 with ⟨⟨score, st2⟩, _hrec, h3⟩
    dsimp only at h3
    by_cases hbr : XInt.le (XInt.min be score) al = true
    · rw [if_pos hbr] at h3
      simp only [Except.ok.injEq, Prod.mk.injEq] at h3
      obtain ⟨⟨_, hbm', _⟩, _⟩ := h3
      rw [← hbm'] at hm
      by_cases hup : XInt.lt score bs = true
      · rw [if_pos hup] at hm
        simp only at hm
        left
        rw [← Option.some.inj hm]
        exact List.mem_cons_self move rest
      · rw [if_neg hup] at hm
        simp only at hm
        right
        exact hm
    · rw [if_neg hbr] at h3
      rcases ih _ _ _ _ _ _ _ _ _ h3 m hm with hmem | hbm
      · exact Or.inl (List.mem_cons_of_mem move hmem)
      · by_cases hup : XInt.lt score bs = true
        · rw [if_pos hup] at hbm
          simp only at hbm
          left
          rw [← Option.some.inj hbm]
          exact List.mem_cons_self move rest
        · rw [if_neg hup] at hbm
          simp only at hbm
          right
          exact hbm

theorem minimax_bestMove_mem (env : Env) (fuel : Nat) :
    ∀ (board : GameBoard) (depth : Nat) (isMax : Bool) (al be : XInt) (size : Nat)
      (mp : Player) (maxD : Option Int) (sT : Option Nat) (st : EngineState)
      (r : MMResult) (st' : EngineState),
      minimax env fuel board depth isMax al be size mp maxD sT st = .ok (r, st') →
      ∀ m, r.bestMove = some m → m ∈ getAvailableMoves board := by
  cases fuel with
  | zero =>
    intro board depth isMax al be size mp maxD sT st r st' h m hm
    simp only [minimax, Except.ok.injEq, Prod.mk.injEq] at h
    rw [← h.1] at hm
    cases hm
  | succ fuel =>
    intro board depth isMax al be size mp maxD sT st r st' h m hm
    simp only [minimax] at h
    split at h
    · -- time cut: evaluate and return, no move
      rcases except_bind_ok.mp h with ⟨⟨score, st2⟩, _, h2⟩
      simp only [Except.ok.injEq, Prod.mk.injEq] at h2
      rw [← h2.1] at hm
      cases hm
    · -- not cut
      split at h
      · -- transposition cutoff: score only
        simp only [Except.ok.injEq, Prod.mk.injEq] at h
        rw [← h.1] at hm
        cases hm
      · rcases except_bind_ok.mp h with ⟨winner, _hw, h2⟩
        split at h2
        · -- terminal state: score only
          simp only [Except.ok.injEq, Prod.mk.injEq] at h2
          rw [← h2.1] at hm
          cases hm
        · split at h2
          · -- depth limit: evaluate, no move
            rcases except_bind_ok.mp h2 with ⟨⟨score, st2⟩, _, h3⟩
            simp only [Except.ok.injEq, Prod.mk.injEq] at h3
            rw [← h3.1] at hm
            cases hm
          · split at h2
            · -- no moves: tie, no move
              simp only [Except.ok.injEq, Prod.mk.injEq] at h2
              rw [← h2.1] at hm
              cases hm
            · split at h2
              · -- maximizing loop
                rcases except_bind_ok.mp h2 with ⟨om, hom, h3⟩
                rcases except_bind_ok.mp h3 with ⟨⟨⟨bs, bm, flag⟩, st2⟩, hloop, h4⟩
                simp only [Except.ok.injEq, Prod.mk.injEq] at h4
                rw [← h4.1] at hm
                dsimp only at hm
                rcases minimaxMaxLoop_bestMove _ _ _ _ _ _ _ _ _ _ _ _ _ hloop m hm
                    with hmem | hnone
                · exact (orderMoves_perm hom).mem_iff.mp hmem
                · cases hnone
              · -- minimizing loop
                rcases except_bind_ok.mp h2 with ⟨om, hom, h3⟩
                rcases except_bind_ok.mp h3 with ⟨⟨⟨bs, bm, flag⟩, st2⟩, hloop, h4⟩
                simp only [Except.ok.injEq, Prod.mk.injEq] at h4
                rw [← h4.1] at hm
                dsimp only at hm
                rcases minimaxMinLoop_bestMove _ _ _ _ _ _ _ _ _ _ _ _ _ hloop m hm
                    with hmem | hnone
                · exact (orderMoves_perm hom).mem_iff.mp hmem
                · cases hnone

theorem idLoop_mem (env : Env) (board : GameBoard) (size : Nat) (timeLimit : Int)
    (startTime : Nat) :
    ∀ (fuelD depth bestMove : Nat) (st : EngineState),
      bestMove ∈ getAvailableMoves board →
      (iterativeDeepeningLoop env board size timeLimit startTime fuelD depth
          bestMove st).1 ∈ getAvailableMoves board := by
  intro fuelD
  induction fuelD with
  | zero =>
    intro depth bestMove st hb
    exact hb
  | succ fuelD ih =>
    intro depth bestMove st hb
    simp only [iterativeDeepeningLoop, readClock]
    split
    · split
      · exact hb
      next result st2 heq =>
        have hmem : (match result.bestMove with | some m => m | none => bestMove)
            ∈ getAvailableMoves board := by
          cases hbm : result.bestMove with
          | none => exact hb
          | some m =>
            exact minimax_bestMove_mem env _ _ _ _ _ _ _ _ _ _ _ _ _ heq m hbm
        split
        · exact hmem
        · exact ih _ _ _ hmem
    · exact hb

theorem iterativeDeepening_mem (env : Env) (board : GameBoard)
    (availableMoves : List Nat) (size : Nat) (timeLimit : Int) (st : EngineState)
    (hav : availableMoves = getAvailableMoves board) (hne : availableMoves ≠ []) :
    (iterativeDeepening env board availableMoves size timeLimit st).1
      ∈ availableMoves := by
  have hb : availableMoves.headD 0 ∈ availableMoves := by
    cases availableMoves with
    | nil => exact absurd rfl hne
    | cons a l => exact List.mem_cons_self a l
  simp only [iterativeDeepening]
  rw [hav] at hb ⊢
  exact idLoop_mem env board size timeLimit _ _ _ _ _ hb

theorem idLoop_stop (env : Env) (board : GameBoard) (size : Nat) (timeLimit : Int)
    (startTime : Nat) (fuelD depth bestMove : Nat) (st : EngineState)
    (h : ¬ ((env.clock st.clockIdx : Int) - (startTime : Int) < timeLimit
        ∧ depth ≤ MAX_SEARCH_DEPTH)) :
    iterativeDeepeningLoop env board size timeLimit startTime (fuelD + 1) depth
        bestMove st = (bestMove, { st with clockIdx := st.clockIdx + 1 }) := by
  simp only [iterativeDeepeningLoop, readClock]
  rw [if_neg h]

theorem iterativeDeepening_timeout (env : Env) (board : GameBoard)
    (availableMoves : List Nat) (size : Nat) (timeLimit : Int) (st : EngineState)
    (h : timeLimit ≤ (env.clock (st.clockIdx + 1) : Int) - (env.clock st.clockIdx : Int)) :
    (iterativeDeepening env board availableMoves size timeLimit st).1 =
      availableMoves.headD 0 := by
  simp only [iterativeDeepening, readClock]
  split
  · rw [idLoop_stop]
    intro hc
    exact absurd hc.1 (not_lt.mpr h)
  · rw [idLoop_stop]
    intro hc
    exact absurd hc.1 (not_lt.mpr h)

/-- C6 (counterexample): the driver does not return the deepest completed
iteration's move.  With a constant clock every iteration completes, and the
deepest iterations' search (fresh table per iteration, as the spec describes)
picks the block at 6 — but the code returns 4: the transposition key omits
the iteration's depth budget, so after the depth-1 iteration stores an exact
root entry every deeper iteration hits it at the root, gets a score with no
move, and the depth-1 move survives. -/
theorem c6_counterexample_tt_root_hit :
    (specIterativeDeepening steadyClockEnv cxBoard (getAvailableMoves cxBoard) 3
        TIME_LIMIT_MS initialEngineState).1 = 6
    ∧ (iterativeDeepening steadyClockEnv cxBoard (getAvailableMoves cxBoard) 3
        TIME_LIMIT_MS initialEngineState).1 = 4 := ⟨rfl, rfl⟩

/-- C6 (amended): what `iterativeDeepening` does guarantee.  (1) The returned
move is always one of `availableMoves` when those are the board's free cells
and nonempty; (2) when the very first loop check is already over budget the
first available move is returned; (3) but the move returned is the depth-1
iteration's, not the deepest completed one's: on `cxBoard` (no time pressure,
so every iteration completes) it returns 4 while the full-depth search's
best move is 6. -/
theorem c6_iterative_deepening_amended :
    (∀ (env : Env) (board : GameBoard) (availableMoves : List Nat) (size : Nat)
        (timeLimit : Int) (st : EngineState),
        availableMoves = getAvailableMoves board → availableMoves ≠ [] →
        (iterativeDeepening env board availableMoves size timeLimit st).1
          ∈ availableMoves)
    ∧ (∀ (env : Env) (board : GameBoard) (availableMoves : List Nat) (size : Nat)
        (timeLimit : Int) (st : EngineState),
        timeLimit ≤ (env.clock (st.clockIdx + 1) : Int) - (env.clock st.clockIdx : Int) →
        (iterativeDeepening env board availableMoves size timeLimit st).1 =
          availableMoves.headD 0)
    ∧ (iterativeDeepening steadyClockEnv cxBoard (getAvailableMoves cxBoard) 3
        TIME_LIMIT_MS initialEngineState).1 = 4
    ∧ (minimax steadyClockEnv 10 cxBoard 0 true .negInf .posInf 3 .O (some 12) none
        initialEngineState).map (fun r => r.1.bestMove) = .ok (some 6) :=
  ⟨fun env board av size tl st hav hne =>
      iterativeDeepening_mem env board av size tl st hav hne,
    fun env board av size tl st h =>
      iterativeDeepening_timeout env board av size tl st h,
    rfl, rfl⟩

/-- C6 (witness for the amended statement): both universally quantified parts
instantiated at `cxBoard` — membership under the steady clock, the
first-available fallback under a clock already over budget. -/
theorem c6_iterative_deepening_amended_witness :
    (iterativeDeepening steadyClockEnv cxBoard (getAvailableMoves cxBoard) 3 TIME_LIMIT_MS
        initialEngineState).1 ∈ getAvailableMoves cxBoard
    ∧ (iterativeDeepening lateClockEnv cxBoard (getAvailableMoves cxBoard) 3 TIME_LIMIT_MS
        initialEngineState).1 = (getAvailableMoves cxBoard).headD 0 :=
  ⟨c6_iterative_deepening_amended.1 steadyClockEnv cxBoard _ 3 TIME_LIMIT_MS
      initialEngineState rfl (by decide),
    c6_iterative_deepening_amended.2.1 lateClockEnv cxBoard _ 3 TIME_LIMIT_MS
      initialEngineState (by decide)⟩

theorem ok_bind {ε α β : Type _} (a : α) (f : α → Except ε β) :
    (Except.ok a >>= f : Except ε β) = f a := rfl

theorem ok_bind' {ε α β : Type _} (a : α) (f : α → Except ε β) :
    (Except.ok a).bind f = f a := rfl

theorem natSqrt_square (s : Nat) : natSqrt (s * s) = s := by
  rcases Nat.eq_zero_or_pos s with hs | hs
  · subst hs; rfl
  · have hmul : s * 1 ≤ s * s := Nat.mul_le_mul_left s hs
    have hsplit : s * s + 1 = (s + 1) + (s * s - s) := by omega
    rw [natSqrt, hsplit, List.range_add, List.filter_append]
    have h1 : (List.range (s + 1)).filter (fun k => decide (k * k ≤ s * s))
        = List.range (s + 1) := by
      apply List.filter_eq_self.mpr
      intro a ha
      rw [List.mem_range] at ha
      have ha' : a ≤ s := by omega
      simpa using Nat.mul_le_mul ha' ha'
    have h2 : ((List.range (s * s - s)).map (fun j => s + 1 + j)).filter
        (fun k => decide (k * k ≤ s * s)) = [] := by
      apply List.filter_eq_nil_iff.mpr
      intro a ha
      rw [List.mem_map] at ha
      obtain ⟨j, -, rfl⟩ := ha
      have hgt : s < s + 1 + j := by omega
      have hlt := Nat.mul_self_lt_mul_self hgt
      simp only [decide_eq_true_eq]
      omega
    rw [h1, h2]
    simp

theorem mem_getAvailableMoves {board : GameBoard} {m : Nat} :
    m ∈ getAvailableMoves board ↔ m < board.length ∧ cellAt board m = none := by
  simp [getAvailableMoves, List.mem_filter, List.mem_range]

theorem makeMove_avail_ok {board : GameBoard} {size m : Nat} {p : Player}
    (h3 : 3 ≤ size) (h20 : size ≤ 20) (hlen : board.length = size * size)
    (hm : m < board.length) (hc : cellAt board m = none) :
    makeMove board (m : Int) p = .ok (board.set m (some p)) := by
  have hsq : natSqrt board.length = size := by rw [hlen, natSqrt_square]
  have hv1 : validateBoardSize size = .ok () := by
    unfold validateBoardSize
    rw [if_neg]
    simp only [MIN_BOARD_SIZE, MAX_BOARD_SIZE, BOARD_SIZE]
    omega
  have hv2 : validatePosition (m : Nat) size = .ok () := by
    unfold validatePosition
    rw [if_neg]
    have hm' : m < size * size := hlen ▸ hm
    push_neg
    constructor
    · exact Int.natCast_nonneg m
    · omega
  simp only [makeMove, hsq]
  rw [if_neg (by omega : ¬ size * size ≠ board.length)]
  rw [hv1, ok_bind', hv2, ok_bind']
  rw [if_neg (by rw [cellAtI_natCast, hc]; exact fun h => h rfl)]
  simp

theorem checkWinner_eq {board : GameBoard} {size : Nat}
    (h3 : 3 ≤ size) (h20 : size ≤ 20) (hlen : board.length = size * size) :
    checkWinner board size = .ok
      (match (if 5 < size then checkWinnerDynamic board size
          else checkWinnerCombos board size) with
        | some p => some (.won p)
        | none => if board.all (fun cell => cell ≠ none) then some .tie else none) := by
  have hv1 : validateBoardSize size = .ok () := by
    unfold validateBoardSize
    rw [if_neg]
    simp only [MIN_BOARD_SIZE, MAX_BOARD_SIZE, BOARD_SIZE]
    omega
  unfold checkWinner
  rw [hv1, if_neg (by omega : ¬ board.length ≠ size * size)]
  cases hwin : (if 5 < size then checkWinnerDynamic board size
      else checkWinnerCombos board size) with
  | none =>
    dsimp only
    split <;> rfl
  | some p => rfl

theorem checkWinner_ok {board : GameBoard} {size : Nat}
    (h3 : 3 ≤ size) (h20 : size ≤ 20) (hlen : board.length = size * size) :
    ∃ w, checkWinner board size = .ok w :=
  ⟨_, checkWinner_eq h3 h20 hlen⟩

theorem firstWinningMove_finds {board : GameBoard} {size : Nat} {p : Player} :
    ∀ moves : List Nat,
      (∀ m ∈ moves, ∃ b', makeMove board (m : Int) p = .ok b'
          ∧ ∃ w, checkWinner b' size = .ok w) →
      (∃ m ∈ moves, isWinningMove board size p m = true) →
      ∃ m, isWinningMove board size p m = true
        ∧ firstWinningMove board size p moves = .ok (some m) := by
  intro moves
  induction moves with
  | nil =>
    intro _ hex
    rcases hex with ⟨m, hm, _⟩
    cases hm
  | cons move rest ih =>
    intro hok hex
    obtain ⟨b', hmk, w, hcw⟩ := hok move (List.mem_cons_self move rest)
    by_cases hwin : isWinningMove board size p move = true
    · refine ⟨move, hwin, ?_⟩
      have hw : w = some (.won p) := by
        unfold isWinningMove at hwin
        rw [hmk] at hwin
        dsimp only at hwin
        rw [hcw] at hwin
        simpa using hwin
      simp only [firstWinningMove, hmk, ok_bind, hcw, hw, if_true]
      rfl
    · have hex' : ∃ m ∈ rest, isWinningMove board size p m = true := by
        rcases hex with ⟨m, hm, hw⟩
        rcases List.mem_cons.mp hm with rfl | hm'
        · exact absurd hw hwin
        · exact ⟨m, hm', hw⟩
      obtain ⟨m, hmw, hfw⟩ := ih (fun m hm => hok m (List.mem_cons_of_mem move hm)) hex'
      refine ⟨m, hmw, ?_⟩
      have hwne : ¬ w = some (.won p) := by
        intro he
        apply hwin
        unfold isWinningMove
        rw [hmk]
        dsimp only
        rw [hcw, he]
        simp
      simp only [firstWinningMove, hmk, ok_bind, hcw]
      rw [if_neg hwne]
      exact hfw

theorem getMediumMove_win {env : Env} {board : GameBoard} {availableMoves : List Nat}
    {size : Nat} {st : EngineState} {m : Nat}
    (hfw : firstWinningMove board size .O availableMoves = .ok (some m)) :
    getMediumMove env board availableMoves size st = .ok (some m, st) := by
  simp only [getMediumMove, hfw, ok_bind]
  rfl

theorem getHardMove_win {env : Env} {board : GameBoard} {availableMoves : List Nat}
    {size : Nat} {st : EngineState} {m : Nat}
    (hfw : firstWinningMove board size .O availableMoves = .ok (some m)) :
    getHardMove env board availableMoves size st = .ok (some m, st) := by
  simp only [getHardMove, hfw, ok_bind]
  rfl

/-- C4: when an immediate win is available, both the Medium and the Hard
policy take one (their first loop tries every available move and returns the
first whose board makes `checkWinner` report a win for `'O'`), for every
outcome of the random and clock draws; concretely, on
`['O','O',null,'X','X',null,null,null,null]` both return position 2. -/
theorem c4_win_priority :
    (∀ (env : Env) (board : GameBoard) (size : Nat) (st : EngineState),
        3 ≤ size → size ≤ 20 → board.length = size * size →
        (∃ m ∈ getAvailableMoves board, isWinningMove board size .O m = true) →
        ∃ m, isWinningMove board size .O m = true
          ∧ getMediumMove env board (getAvailableMoves board) size st = .ok (some m, st)
          ∧ getHardMove env board (getAvailableMoves board) size st = .ok (some m, st))
    ∧ (∀ (env : Env) (st : EngineState),
        getMediumMove env c4Board (getAvailableMoves c4Board) 3 st = .ok (some 2, st)
        ∧ getHardMove env c4Board (getAvailableMoves c4Board) 3 st = .ok (some 2, st)) := by
  constructor
  · intro env board size st h3 h20 hlen hex
    have hok : ∀ m ∈ getAvailableMoves board, ∃ b', makeMove board (m : Int) .O = .ok b'
        ∧ ∃ w, checkWinner b' size = .ok w := by
      intro m hm
      rw [mem_getAvailableMoves] at hm
      refine ⟨_, makeMove_avail_ok h3 h20 hlen hm.1 hm.2, ?_⟩
      exact checkWinner_ok h3 h20 (by rw [List.length_set]; exact hlen)
    obtain ⟨m, hw, hfw⟩ := firstWinningMove_finds _ hok hex
    exact ⟨m, hw, getMediumMove_win hfw, getHardMove_win hfw⟩
  · intro env st
    have hfw : firstWinningMove c4Board 3 .O (getAvailableMoves c4Board)
        = .ok (some 2) := rfl
    exact ⟨getMediumMove_win hfw, getHardMove_win hfw⟩

/-- C4 (witness): the universally quantified part instantiated on the claim's
own board: some winning move is played from the fresh-cache state. -/
theorem c4_win_priority_witness :
    ∃ m, isWinningMove c4Board 3 .O m = true
      ∧ getMediumMove steadyClockEnv c4Board (getAvailableMoves c4Board) 3
          initialEngineState = .ok (some m, initialEngineState)
      ∧ getHardMove steadyClockEnv c4Board (getAvailableMoves c4Board) 3
          initialEngineState = .ok (some m, initialEngineState) :=
  c4_win_priority.1 steadyClockEnv c4Board 3 initialEngineState (by decide) (by decide)
    (by decide) ⟨2, by decide, by decide⟩

theorem minimax_env_irrel (env env' : Env) :
    ∀ (fuel : Nat) (board : GameBoard) (depth : Nat) (isMax : Bool) (al be : XInt)
      (size : Nat) (mp : Player) (maxD : Option Int) (st : EngineState),
      minimax env fuel board depth isMax al be size mp maxD none st =
        minimax env' fuel board depth isMax al be size mp maxD none st := by
  intro fuel
  induction fuel with
  | zero =>
    intro board depth isMax al be size mp maxD st
    rfl
  | succ fuel ih =>
    intro board depth isMax al be size mp maxD st
    have hmax : (fun b a bet s =>
          (minimax env fuel b (depth + 1) false a bet size mp maxD none s).map
            (fun r => (r.1.score, r.2))) =
        (fun b a bet s =>
          (minimax env' fuel b (depth + 1) false a bet size mp maxD none s).map
            (fun r => (r.1.score, r.2))) := by
      funext b a bet s
      rw [ih]
    have hmin : (fun b a bet s =>
          (minimax env fuel b (depth + 1) true a bet size mp maxD none s).map
            (fun r => (r.1.score, r.2))) =
        (fun b a bet s =>
          (minimax env' fuel b (depth + 1) true a bet size mp maxD none s).map
            (fun r => (r.1.score, r.2))) := by
      funext b a bet s
      rw [ih]
    simp only [minimax, minimaxTimeCheck]
    rw [hmax, hmin]

set_option maxRecDepth 10000 in
/-- C5: on `['X','X',null,...]` there is no winning move for `'O'`, and both
policies block at position 2 — Medium through its block loop, for every
random draw and cache state, and Hard (from the fresh-cache state, for every
oracle environment: the board has 7 empty cells, at most the endgame
threshold 8, so Hard runs the full-depth minimax with `maxDepth = 7` and no
start time, never consulting the clock). -/
theorem c5_block_priority :
    (∀ (env : Env) (st : EngineState),
        getMediumMove env c5Board (getAvailableMoves c5Board) 3 st = .ok (some 2, st))
    ∧ (∀ env : Env,
        (getHardMove env c5Board (getAvailableMoves c5Board) 3 initialEngineState).map
          (fun r => r.1) = .ok (some 2)) := by
  constructor
  · intro env st
    simp only [getMediumMove,
      show firstWinningMove c5Board 3 .O (getAvailableMoves c5Board) = .ok none from rfl,
      ok_bind,
      show firstWinningMove c5Board 3 .X (getAvailableMoves c5Board) = .ok (some 2)
        from rfl]
    rfl
  · intro env
    simp only [getHardMove,
      show firstWinningMove c5Board 3 .O (getAvailableMoves c5Board) = .ok none from rfl,
      ok_bind]
    rw [minimax_env_irrel env steadyClockEnv]
    rfl

theorem headD_mem {l : List Nat} (h : l ≠ []) : l.headD 0 ∈ l := by
  cases l with
  | nil => exact absurd rfl h
  | cons a t => exact List.mem_cons_self a t

theorem getAIMoveAttempt_mem {env : Env} {board : GameBoard} {difficulty : Difficulty}
    {size : Nat} {st : EngineState} {move : Nat} {st' : EngineState}
    (h : getAIMoveAttempt env board difficulty size st = .ok (move, st')) :
    move ∈ getAvailableMoves board := by
  unfold getAIMoveAttempt at h
  rcases except_bind_ok.mp h with ⟨u, _hval, h2⟩
  split at h2
  · cases h2
  · dsimp only at h2
    split at h2
    · cases h2
    next hne =>
      rcases except_bind_ok.mp h2 with ⟨moveSt, _hpol, h3⟩
      have hne' : getAvailableMoves board ≠ [] := by
        intro he
        rw [he] at hne
        exact hne rfl
      simp only [Except.ok.injEq, Prod.mk.injEq] at h3
      rw [← h3.1]
      cases moveSt.1 with
      | none => exact headD_mem hne'
      | some m =>
        dsimp only
        split
        next hc => exact List.mem_of_elem_eq_true hc
        · exact headD_mem hne'

/-- C2: `getAIMove` always returns a plain number, never an exception: when
the board has at least one empty cell the result is the index of an empty
cell (for any difficulty, cache state, and oracle outcomes — the final
`includes` check and the `catch` fallback guarantee it policy-independently),
and it is the sentinel `-1` exactly when the board has no empty cell. -/
theorem c2_getAIMove_total_legal :
    ∀ (env : Env) (board : GameBoard) (difficulty : Difficulty) (size : Nat)
      (st : EngineState),
      (getAvailableMoves board ≠ [] →
        ∃ m : Nat, (getAIMove env board difficulty size st).1 = (m : Int)
          ∧ m ∈ getAvailableMoves board ∧ cellAt board m = none)
      ∧ (getAvailableMoves board = [] →
        (getAIMove env board difficulty size st).1 = -1) := by
  intro env board difficulty size st
  constructor
  · intro hne
    rcases hat : getAIMoveAttempt env board difficulty size st with e | ⟨move, st'⟩
    · simp only [getAIMove, hat]
      have hlen : 0 < (getAvailableMoves board).length := List.length_pos.mpr hne
      rw [if_pos hlen]
      exact ⟨(getAvailableMoves board).headD 0, rfl, headD_mem hne,
        (mem_getAvailableMoves.mp (headD_mem hne)).2⟩
    · have hmem := getAIMoveAttempt_mem hat
      simp only [getAIMove, hat]
      exact ⟨move, rfl, hmem, (mem_getAvailableMoves.mp hmem).2⟩
  · intro hemp
    rcases hat : getAIMoveAttempt env board difficulty size st with e | ⟨move, st'⟩
    · simp only [getAIMove, hat]
      rw [if_neg]
      rw [hemp]
      exact fun hc => absurd hc (by simp)
    · have hmem := getAIMoveAttempt_mem hat
      rw [hemp] at hmem
      cases hmem

/-- C2 (witness): Medium on the C4 board from the fresh-cache state returns
the index of an empty cell. -/
theorem c2_getAIMove_total_legal_witness :
    ∃ m : Nat, (getAIMove steadyClockEnv c4Board .medium 3 initialEngineState).1 = (m : Int)
      ∧ m ∈ getAvailableMoves c4Board ∧ cellAt c4Board m = none :=
  (c2_getAIMove_total_legal steadyClockEnv c4Board .medium 3 initialEngineState).1
    (by decide)

theorem validateBoardSize_ok {size : Nat} (h3 : 3 ≤ size) (h20 : size ≤ 20) :
    validateBoardSize size = .ok () := by
  unfold validateBoardSize
  rw [if_neg]
  simp only [MIN_BOARD_SIZE, MAX_BOARD_SIZE, BOARD_SIZE]
  omega

theorem cellToJson_roundtrip (c : Cell) : jsonToCell (cellToJson c) = c := by
  rcases c with _ | p
  · rfl
  · cases p <;> rfl

theorem moveToJson_roundtrip (mv : MoveRec) : jsonToMove (moveToJson mv) = mv := by
  rcases mv with ⟨pl, pos⟩
  rcases pl with _ | p
  · rfl
  · cases p <;> rfl

theorem map_roundtrip {α β : Type _} (f : α → β) (g : β → α)
    (h : ∀ a, g (f a) = a) (l : List α) : (l.map f).map g = l := by
  induction l with
  | nil => rfl
  | cons a t ih => simp [h, ih]

theorem serializedLookup (a b c d e : Json) :
    jsonLookup (.obj [("finalBoard", a), ("moves", b), ("boardSize", c),
        ("timestamp", d), ("version", e)]) "finalBoard" = some a
    ∧ jsonLookup (.obj [("finalBoard", a), ("moves", b), ("boardSize", c),
        ("timestamp", d), ("version", e)]) "moves" = some b
    ∧ jsonLookup (.obj [("finalBoard", a), ("moves", b), ("boardSize", c),
        ("timestamp", d), ("version", e)]) "boardSize" = some c
    ∧ jsonLookup (.obj [("finalBoard", a), ("moves", b), ("boardSize", c),
        ("timestamp", d), ("version", e)]) "timestamp" = some d :=
  ⟨rfl, rfl, rfl, rfl⟩

/-- C8: serializing a well-formed board state and deserializing it
reproduces the board, the move list, and the size exactly (for every
timestamp pair: the timestamp plays no role in the round trip of these three
fields). -/
theorem c8_serialize_roundtrip :
    ∀ (board : GameBoard) (moves : List MoveRec) (size : Nat) (nowIso nowIso2 : String),
      3 ≤ size → size ≤ 20 → board.length = size * size →
      ∃ j, serializeBoardState board moves none nowIso = .ok j
        ∧ (deserializeBoardState j nowIso2).finalBoard = board
        ∧ (deserializeBoardState j nowIso2).moves = moves
        ∧ (deserializeBoardState j nowIso2).boardSize = size := by
  intro board moves size nowIso nowIso2 h3 h20 hlen
  have hsq : natSqrt board.length = size := by rw [hlen, natSqrt_square]
  have hroundB : (board.map cellToJson).map jsonToCell = board :=
    map_roundtrip _ _ cellToJson_roundtrip board
  have hroundM : (moves.map moveToJson).map jsonToMove = moves :=
    map_roundtrip _ _ moveToJson_roundtrip moves
  obtain ⟨hlkB, hlkM, hlkS, hlkT⟩ := serializedLookup (.arr (board.map cellToJson))
    (.arr (moves.map moveToJson)) (.num (size : Int)) (.str nowIso) (.str "2.0")
  have hbound : ¬ ((size : Int) < (MIN_BOARD_SIZE : Int)
      ∨ (MAX_BOARD_SIZE : Int) < (size : Int)) := by
    simp only [MIN_BOARD_SIZE, MAX_BOARD_SIZE, BOARD_SIZE]
    omega
  have hlencond : ¬ (board.length ≠ ((size : Int)).toNat * ((size : Int)).toNat) := by
    rw [Int.toNat_natCast]
    omega
  refine ⟨.obj [("finalBoard", .arr (board.map cellToJson)),
                ("moves", .arr (moves.map moveToJson)),
                ("boardSize", .num (size : Int)),
                ("timestamp", .str nowIso),
                ("version", .str "2.0")], ?_, ?_, ?_, ?_⟩
  · simp only [serializeBoardState, hsq]
    rw [if_neg (by omega), validateBoardSize_ok h3 h20]
    rfl
  · simp only [deserializeBoardState, hlkB, hlkM, hlkS, hlkT]
    rw [if_neg hbound, hroundB, if_neg hlencond]
  · simp only [deserializeBoardState, hlkB, hlkM, hlkS, hlkT]
    rw [if_neg hbound, hroundB, if_neg hlencond]
    exact hroundM
  · simp only [deserializeBoardState, hlkB, hlkM, hlkS, hlkT]
    rw [if_neg hbound, hroundB, if_neg hlencond]
    exact Int.toNat_natCast size

/-- C8 (witness): the round trip on the C4 board with a two-move history. -/
theorem c8_serialize_roundtrip_witness :
    ∃ j, serializeBoardState c4Board
        [{ player := some .O, position := 0 }, { player := some .X, position := 3 }]
        none "t0" = .ok j
      ∧ (deserializeBoardState j "t1").finalBoard = c4Board
      ∧ (deserializeBoardState j "t1").moves =
        [{ player := some .O, position := 0 }, { player := some .X, position := 3 }]
      ∧ (deserializeBoardState j "t1").boardSize = 3 :=
  c8_serialize_roundtrip c4Board
    [{ player := some .O, position := 0 }, { player := some .X, position := 3 }]
    3 "t0" "t1" (by decide) (by decide) (by decide)

theorem makeMove_ok_inv {board : GameBoard} {pos : Int} {p : Player} {b' : GameBoard}
    (h : makeMove board pos p = .ok b') :
    ∃ n : Nat, pos = (n : Int) ∧ n < board.length ∧ cellAt board n = none
      ∧ b' = board.set n (some p) := by
  simp only [makeMove] at h
  split at h
  · cases h
  next hint =>
    rcases except_bind_ok.mp h with ⟨u, _hval, h2⟩
    rcases except_bind_ok.mp h2 with ⟨u2, hpos, h3⟩
    split at h3
    · cases h3
    next hcell =>
      have hcell' : cellAtI board pos = none := not_ne_iff.mp hcell
      have hsq : natSqrt board.length * natSqrt board.length = board.length :=
        not_ne_iff.mp hint
      have hrange : ¬ (pos < 0
          ∨ ((natSqrt board.length : Int) * natSqrt board.length - 1) < pos) := by
        intro hcon
        unfold validatePosition at hpos
        rw [if_pos hcon] at hpos
        cases hpos
      push_neg at hrange
      have hcast : ((natSqrt board.length : Int) * natSqrt board.length)
          = (board.length : Int) := by exact_mod_cast congrArg Nat.cast hsq
      refine ⟨pos.toNat, (Int.toNat_of_nonneg hrange.1).symm, by omega, ?_, ?_⟩
      · rw [cellAtI, if_neg (not_lt.mpr hrange.1)] at hcell'
        exact hcell'
      · exact (Except.ok.inj h3).symm

theorem replayMoves_chain :
    ∀ (moves : List MoveRec) (b : GameBoard),
      List.Chain' snapshotStep (b :: replayMoves moves b) := by
  intro moves
  induction moves with
  | nil =>
    intro b
    simp [replayMoves]
  | cons mv rest ih =>
    intro b
    simp only [replayMoves]
    cases mv.player with
    | none => exact ih b
    | some p =>
      cases hmk : makeMove b mv.position p with
      | error e =>
        simp only [hmk]
        simp
      | ok b' =>
        simp only [hmk]
        obtain ⟨n, _hpos, hlt, hcell, hset⟩ := makeMove_ok_inv hmk
        exact List.chain'_cons.mpr ⟨⟨p, n, hlt, hcell, hset⟩, ih b'⟩

theorem replayMoves_skip :
    ∀ (moves1 : List MoveRec) (mv : MoveRec) (moves2 : List MoveRec) (b : GameBoard),
      mv.player = none →
      replayMoves (moves1 ++ mv :: moves2) b = replayMoves (moves1 ++ moves2) b := by
  intro moves1
  induction moves1 with
  | nil =>
    intro mv moves2 b hpl
    simp only [List.nil_append, replayMoves, hpl]
  | cons mv1 rest ih =>
    intro mv moves2 b hpl
    simp only [List.cons_append, replayMoves]
    cases mv1.player with
    | none => exact ih mv moves2 b hpl
    | some p =>
      dsimp only
      cases hmk : makeMove b mv1.position p with
      | error e => simp only [hmk]
      | ok b' =>
        simp only [hmk]
        exact congrArg (fun l => b' :: l) (ih mv moves2 b' hpl)

/-- C9 (counterexample): a move with a `null` marker does not stop the
replay.  The `!move.player` guard hits `continue`, not `break`, so the move
after it is still applied: replaying `[{player: null, position: 0},
{player: 'X', position: 0}]` yields two snapshots, not just the initial
board as it would if the replay stopped at the invalid-marker move. -/
theorem c9_counterexample_null_marker_skipped :
    replayGame [{ player := none, position := 0 },
        { player := some .X, position := 0 }] 3
      = [createEmptyBoard 3, (createEmptyBoard 3).set 0 (some .X)]
    ∧ replayGame [{ player := none, position := 0 },
        { player := some .X, position := 0 }] 3
      ≠ [createEmptyBoard 3] := ⟨rfl, by decide⟩

/-- C9 (amended): `replayGame` always returns a non-empty snapshot list
headed by the empty board; each later snapshot extends the previous one by a
single marker on a free in-range cell (one snapshot per applied move); a
move that `makeMove` rejects stops the replay with the snapshots collected
so far and nothing after it applied (concrete conjunct: the occupied move
stops the three-move list at one applied move); but a `null`-marker move is
skipped and the replay continues — the replay behaves as if that move were
deleted from the list. -/
theorem c9_replay_amended :
    (∀ (moves : List MoveRec) (size : Nat),
        (replayGame moves size).head? = some (createEmptyBoard size))
    ∧ (∀ (moves : List MoveRec) (size : Nat),
        List.Chain' snapshotStep (replayGame moves size))
    ∧ (∀ (moves1 : List MoveRec) (mv : MoveRec) (moves2 : List MoveRec) (size : Nat),
        mv.player = none →
        replayGame (moves1 ++ mv :: moves2) size = replayGame (moves1 ++ moves2) size)
    ∧ replayGame [{ player := some .X, position := 0 },
        { player := some .O, position := 0 },
        { player := some .X, position := 1 }] 3
      = [createEmptyBoard 3, (createEmptyBoard 3).set 0 (some .X)] := by
  refine ⟨?_, ?_, ?_, rfl⟩
  · intro moves size
    unfold replayGame
    split <;> rfl
  · intro moves size
    unfold replayGame
    split
    · simp
    · exact replayMoves_chain moves (createEmptyBoard size)
  · intro moves1 mv moves2 size hpl
    unfold replayGame
    split
    · rfl
    · rw [replayMoves_skip moves1 mv moves2 (createEmptyBoard size) hpl]

/-- C9 (witness for the amended statement): skipping a `null`-marker move
concretely — prepending it changes nothing. -/
theorem c9_replay_amended_witness :
    replayGame [{ player := none, position := 5 },
        { player := some .O, position := 4 }] 3
      = replayGame [{ player := some .O, position := 4 }] 3 :=
  c9_replay_amended.2.2.1 [] { player := none, position := 5 }
    [{ player := some .O, position := 4 }] 3 rfl

theorem getWithStats_some_inv {K V : Type} [DecidableEq K] {c : LRUCache K V} {key : K}
    {v : V} {c' : LRUCache K V} (h : c.getWithStats key = (some v, c')) :
    mapGet key c.cache = some v ∧ c'.cache = c.cache := by
  unfold LRUCache.getWithStats LRUCache.get at h
  by_cases hs : (mapGet key c.cache).isSome
  · rw [if_pos hs] at h
    cases hm : mapGet key c.cache with
    | none =>
      rw [hm] at hs
      cases hs
    | some w =>
      rw [hm] at h
      dsimp only at h
      rw [Prod.mk.injEq] at h
      refine ⟨?_, ?_⟩
      · exact h.1
      · rw [← h.2]
  · rw [if_neg hs] at h
    dsimp only at h
    rw [Prod.mk.injEq] at h
    exact absurd h.1 (by simp)

theorem getWithStats_hit {K V : Type} [DecidableEq K] {c : LRUCache K V} {key : K}
    {v : V} (h : mapGet key c.cache = some v) :
    ∃ c', c.getWithStats key = (some v, c') := by
  unfold LRUCache.getWithStats LRUCache.get
  rw [h]
  simp

theorem mapGet_set_cache {K V : Type} [DecidableEq K] (c : LRUCache K V) (key : K) (v : V) :
    mapGet key (c.set key v).cache = some v := by
  unfold LRUCache.set
  split
  · exact mapGet_set_self key v c.cache
  · exact mapGet_set_self key v _

theorem evaluateBoard_caches {board : GameBoard} {size : Nat} {mp : Player}
    {st : EngineState} {v : Int} {st' : EngineState}
    (h : evaluateBoard board size mp st = .ok (v, st')) :
    mapGet (createBoardHash board 0 true none none) st'.boardEvaluationCache.cache
      = some v := by
  unfold evaluateBoard at h
  dsimp only at h
  cases hg : st.boardEvaluationCache.getWithStats (createBoardHash board 0 true none none)
      with
  | mk ov c1 =>
    rw [hg] at h
    cases ov with
    | some cached =>
      dsimp only at h
      rw [show (pure (cached, { st with boardEvaluationCache := c1 })
          : Except String (Int × EngineState))
          = .ok (cached, { st with boardEvaluationCache := c1 }) from rfl] at h
      obtain ⟨h1, h2⟩ := Prod.mk.injEq .. ▸ Except.ok.inj h
      rw [← h2]
      dsimp only
      rw [(getWithStats_some_inv hg).2, ← h1]
      exact (getWithStats_some_inv hg).1
    | none =>
      dsimp only at h
      rcases except_bind_ok.mp h with ⟨winner, _hcw, h2⟩
      split at h2
      · -- winner: won p, p = mp or not
        split at h2
        · obtain ⟨h1, h3⟩ := Prod.mk.injEq .. ▸ Except.ok.inj h2
          rw [← h3]
          dsimp only
          rw [← h1]
          exact mapGet_set_cache _ _ _
        · obtain ⟨h1, h3⟩ := Prod.mk.injEq .. ▸ Except.ok.inj h2
          rw [← h3]
          dsimp only
          rw [← h1]
          exact mapGet_set_cache _ _ _
      · -- tie
        obtain ⟨h1, h3⟩ := Prod.mk.injEq .. ▸ Except.ok.inj h2
        rw [← h3]
        dsimp only
        rw [← h1]
        exact mapGet_set_cache _ _ _
      · -- open position: the fold score, then the fork branch
        split at h2
        · rcases except_bind_ok.mp h2 with ⟨own, _, h3⟩
          rcases except_bind_ok.mp h3 with ⟨opp, _, h4⟩
          rcases except_bind_ok.mp h4 with ⟨y, _, h5⟩
          obtain ⟨h1, h6⟩ := Prod.mk.injEq .. ▸ Except.ok.inj h5
          rw [← h6]
          dsimp only
          rw [← h1]
          exact mapGet_set_cache _ _ _
        · rcases except_bind_ok.mp h2 with ⟨y, _, h5⟩
          obtain ⟨h1, h6⟩ := Prod.mk.injEq .. ▸ Except.ok.inj h5
          rw [← h6]
          dsimp only
          rw [← h1]
          exact mapGet_set_cache _ _ _

/-- C10: the evaluation-cache key `createBoardHash(board, 0, true)` does not
encode the perspective player, so once an `'O'`-perspective call has stored
its score, the same board evaluated for `'X'` against the resulting cache
state hits that entry and returns the very same number instead of an
`'X'`-perspective score. -/
theorem c10_eval_cache_ignores_perspective :
    ∀ (board : GameBoard) (size : Nat) (st : EngineState) (v : Int) (st' : EngineState),
      evaluateBoard board size .O st = .ok (v, st') →
      ∃ st'', evaluateBoard board size .X st' = .ok (v, st'') := by
  intro board size st v st' h
  obtain ⟨c', hgs⟩ := getWithStats_hit (evaluateBoard_caches h)
  refine ⟨{ st' with boardEvaluationCache := c' }, ?_⟩
  unfold evaluateBoard
  dsimp only
  rw [hgs]
  rfl

/-- C10 (witness): on `['X','X',null,...]` the `'X'`-perspective call after
an `'O'`-perspective call returns the `'O'` score unchanged. -/
theorem c10_eval_cache_ignores_perspective_witness :
    ∃ st'', evaluateBoard c5Board 3 .X
        ((evaluateBoard c5Board 3 .O initialEngineState).toOption.getD
          (0, initialEngineState)).2
      = .ok (((evaluateBoard c5Board 3 .O initialEngineState).toOption.getD
          (0, initialEngineState)).1, st'') :=
  c10_eval_cache_ignores_perspective c5Board 3 initialEngineState _ _ (by rfl)
